import Mathlib

/-!
# Dynamic Challenges System: the scheduler of `Untitled-2.cpp`

A shallow embedding of `groot::dynamic::DynamicChallengeManager` and the
properties of its state machine and weighted selector.

Modelling conventions

* A finite `float` is modelled by a rational number, and `std::max`,
  `std::min` and `std::clamp` are transcribed from their C++ definitions
  (`fmax`, `fmin`, `fclamp`). The sums of the weights (lines 233 and 238) are
  `float` sums: the exact sum rounded to binary32 by `round32`, and so is the
  elapsed time `timeIn_ += dt` of line 173. `round32` rounds to the nearest
  binary32 number, ties to even, subnormal numbers included; it does not
  overflow, and a sum beyond the binary32 range stays a rational number of
  that size, which compares with every finite `float` as an infinity does.
  The division of line 174 is exact.
* The countdown is a value of `F32`: a finite `float`, an infinity or a NaN.
  Its operations (`F32.ofRat`, `F32.scale`, `F32.add`, `-` and `≤`) round as
  `round32` does and overflow to an infinity from `overflow32` on.
* The private `std::mt19937 rng_` is modelled by the stream `rng_` of the
  canonical values in `[0, 1]` it will produce; `uniform a b u` is what a
  `std::uniform_real_distribution<float>(a, b)` returns for the canonical
  value `u`, namely `u * (b - a) + a` computed in `float`.  The ghost field
  `draws_` records which code site consumed each value, the next value being
  `rng_ draws_.length`.
* The environment `env_` and the listeners are external collaborators.  A
  listener is identified by a number, and every call the manager makes on the
  environment or on a listener is appended to the ghost field `log_`.
  Listeners are assumed not to call back into the manager.
* `pool_` and `weights_` are cleared on entry of `pickRandomWeighted` and read
  nowhere else, so they are local values of `pickRandomWeighted`.
-/

namespace Groot

/-! ## Challenge model -/

/-- The `enum class ChallengeType`. -/
inductive ChallengeType where
  | MeteorShower
  | VineOvergrowth
  | AcidRain
  | LowGravity
  | ResourceBoost
  deriving DecidableEq, Repr

/-- The `struct ChallengeDef`. -/
structure ChallengeDef where
  id : String
  displayName : String
  description : String
  type : ChallengeType
  duration : ℚ
  intensity : ℚ
  weight : ℚ
  canRepeatConsecutively : Bool
  spawnCount : Int
  spawnRadius : ℚ
  deriving DecidableEq

/-- The value `ChallengeDef{}` built from the default member initialisers. -/
def ChallengeDef.default : ChallengeDef :=
  { id := "", displayName := "", description := "",
    type := ChallengeType.MeteorShower, duration := 30, intensity := 1,
    weight := 1, canRepeatConsecutively := false, spawnCount := 20,
    spawnRadius := 40 }

/-! ## Float helpers -/

/-- The function `std::max(a, b)`, which is `(a < b) ? b : a`. -/
def fmax (a b : ℚ) : ℚ := if a < b then b else a

/-- The function `std::min(a, b)`, which is `(b < a) ? b : a`. -/
def fmin (a b : ℚ) : ℚ := if b < a then b else a

/-- The function `std::clamp(v, lo, hi)`, which is
`(v < lo) ? lo : (hi < v) ? hi : v`. -/
def fclamp (v lo hi : ℚ) : ℚ := if v < lo then lo else if hi < v then hi else v

/-! ## Rounding to `float`

A `float` is an IEEE 754 binary32 number. The value of a float operation is
the exact result rounded to the nearest binary32 number, a tie going to the
one with an even significand. `round32` is this rounding on the rationals,
subnormal numbers included. A result beyond the largest finite number, which
is an infinity in the code, is not modelled by `round32`: it stays finite. -/

/-- Rounds to the nearest integer, a tie going to the even one. -/
def roundEven (y : ℚ) : ℤ :=
  if y - ⌊y⌋ < 1 / 2 then ⌊y⌋
  else if 1 / 2 < y - ⌊y⌋ then ⌊y⌋ + 1
  else if ⌊y⌋ % 2 = 0 then ⌊y⌋ else ⌊y⌋ + 1

/-- The unit in the last place for the magnitude `a`, searched from the
binade that starts at `p` downwards, through at most `k` further binades:
the binade `[p, 2p)` has the unit `p / 2^23`. -/
def ulpFrom (a : ℚ) : Nat → ℚ → ℚ
  | 0, p => p / 8388608
  | k + 1, p => if p ≤ a then p / 8388608 else ulpFrom a k (p / 2)

/-- The unit in the last place of the binade number `j`, counted downwards
from the binade that starts at `2^127`: it is `2^(104 - j)`. -/
def ulpAt (j : Nat) : ℚ := 170141183460469231731687303715884105728 / 2 ^ j / 8388608

/-- The unit in the last place of a binary32 number near `x`: `2^(e - 23)`
for `2^e ≤ |x| < 2^(e + 1)`, from `2^104` for the binade of `2^127` down to
`2^(-149)` for the smallest normal binade and the subnormal numbers. -/
def ulp32 (x : ℚ) : ℚ := ulpFrom |x| 253 170141183460469231731687303715884105728

/-- The binary32 number nearest to `x`, a tie going to the even significand. -/
def round32 (x : ℚ) : ℚ := roundEven (x / ulp32 x) * ulp32 x

/-- The `float` sum `a + b`. -/
def fadd (a b : ℚ) : ℚ := round32 (a + b)

/-- A canonical random value, in `[0, 1]`. -/
structure Canon where
  val : ℚ
  nonneg : 0 ≤ val
  le_one : val ≤ 1

/-- The largest finite binary32 number, `2^128 - 2^104`. -/
def fltMax : ℚ := 340282346638528859811704183484516925440

/-- The least magnitude that rounds to an infinity of binary32: `2^128 - 2^103`,
half-way between `fltMax` and `2^128`. -/
def overflow32 : ℚ := 340282356779733661637539395458142568448

/-- The rational number `x` is a finite binary32 number. -/
def isFloat (x : ℚ) : Prop := round32 x = x ∧ |x| ≤ fltMax

/-- A value of the type `float`: a finite one, given by a rational number, an
infinity or a NaN. -/
inductive F32 where
  | fin (x : ℚ)
  | inf
  | ninf
  | nan
  deriving DecidableEq

namespace F32

/-- The `float` result of an operation whose exact result is `x`. -/
def ofRat (x : ℚ) : F32 :=
  if overflow32 ≤ x then inf else if x ≤ -overflow32 then ninf else fin (round32 x)

/-- The `float` sum `y + a` for a finite `a`. -/
def add (y : F32) (a : ℚ) : F32 :=
  match y with
  | fin x => ofRat (x + a)
  | inf => inf
  | ninf => ninf
  | nan => nan

/-- The `float` difference `y - a` for a finite `a`. -/
def sub (y : F32) (a : ℚ) : F32 :=
  match y with
  | fin x => ofRat (x - a)
  | inf => inf
  | ninf => ninf
  | nan => nan

/-- The `float` product `u * d` for a finite `u ≥ 0`; zero times an infinity
is a NaN. -/
def scale (u : ℚ) (d : F32) : F32 :=
  match d with
  | fin x => ofRat (u * x)
  | inf => if u = 0 then nan else inf
  | ninf => if u = 0 then nan else ninf
  | nan => nan

/-- The comparison `c <= d` of two `float` values, false when one is a NaN. -/
def ble : F32 → F32 → Bool
  | nan, _ => false
  | _, nan => false
  | ninf, _ => true
  | _, inf => true
  | inf, _ => false
  | _, ninf => false
  | fin x, fin y => decide (x ≤ y)

end F32

instance : OfNat F32 0 := ⟨F32.fin 0⟩

instance : LE F32 := ⟨fun c d => F32.ble c d = true⟩

instance (c d : F32) : Decidable (c ≤ d) := inferInstanceAs (Decidable (F32.ble c d = true))

instance : HSub F32 ℚ F32 := ⟨F32.sub⟩

/-- The value a `std::uniform_real_distribution<float>(a, b)` returns for the
canonical value `u`: the library computes `u * (b - a) + a` in `float`. -/
def uniform (a b : ℚ) (u : Canon) : F32 := (F32.scale u.val (F32.ofRat (b - a))).add a

/-! ## The manager -/

/-- The private `enum class State`. -/
inductive State where
  | BootDelay
  | Active
  | Interval
  deriving DecidableEq, Repr

/-- A call made by the manager on the environment or on a listener.  The
listener is named by its identifier. -/
inductive Call where
  | apply (d : ChallengeDef)
  | revert (d : ChallengeDef)
  | tick (dt : ℚ)
  | started (cb : Nat) (d : ChallengeDef)
  | ended (cb : Nat) (d : ChallengeDef)
  | ticked (cb : Nat) (d : ChallengeDef) (progress : ℚ)
  deriving DecidableEq

/-- The code site that consumed a random value. -/
inductive DrawSite where
  | randInRange
  | pickRandomWeighted
  deriving DecidableEq, Repr

/-- The members of `class DynamicChallengeManager`, with the ghost fields
`log_` and `draws_`. -/
structure DynamicChallengeManager where
  initialDelayRange : ℚ × ℚ
  intervalRange : ℚ × ℚ
  challenges_ : List ChallengeDef
  current_ : ChallengeDef
  havePrev_ : Bool
  prevType_ : ChallengeType
  state_ : State
  countdown_ : F32
  timeIn_ : ℚ
  rng_ : Nat → Canon
  startListeners_ : List Nat
  endListeners_ : List Nat
  tickListeners_ : List Nat
  log_ : List Call
  draws_ : List DrawSite

namespace DynamicChallengeManager

/-- The constructor `DynamicChallengeManager(IEnvironment& env)`; `rng` is the
stream of the seeded generator. -/
def new (rng : Nat → Canon) : DynamicChallengeManager :=
  { initialDelayRange := (2, 5), intervalRange := (8, 15), challenges_ := [],
    current_ := ChallengeDef.default, havePrev_ := false,
    prevType_ := ChallengeType.MeteorShower, state_ := State.BootDelay,
    countdown_ := 0, timeIn_ := 0, rng_ := rng, startListeners_ := [],
    endListeners_ := [], tickListeners_ := [], log_ := [], draws_ := [] }

/-- The method `setChallenges`. -/
def setChallenges (m : DynamicChallengeManager) (list : List ChallengeDef) :
    DynamicChallengeManager :=
  { m with challenges_ := list }

/-- The method `onStart`. -/
def onStart (m : DynamicChallengeManager) (cb : Nat) : DynamicChallengeManager :=
  { m with startListeners_ := m.startListeners_ ++ [cb] }

/-- The method `onEnd`. -/
def onEnd (m : DynamicChallengeManager) (cb : Nat) : DynamicChallengeManager :=
  { m with endListeners_ := m.endListeners_ ++ [cb] }

/-- The method `onTick`. -/
def onTick (m : DynamicChallengeManager) (cb : Nat) : DynamicChallengeManager :=
  { m with tickListeners_ := m.tickListeners_ ++ [cb] }

/-- The method `randInRange`: the value drawn and the manager after the draw. -/
def randInRange (m : DynamicChallengeManager) (p : ℚ × ℚ) :
    F32 × DynamicChallengeManager :=
  (uniform (fmin p.1 p.2) (fmax p.1 p.2) (m.rng_ m.draws_.length),
   { m with draws_ := m.draws_ ++ [DrawSite.randInRange] })

/-- The test of line 225 that puts `d` in the pool. -/
def eligible (m : DynamicChallengeManager) (d : ChallengeDef) : Bool :=
  !m.havePrev_ || d.canRepeatConsecutively || d.type != m.prevType_

/-- The `pool_` built by lines 223 to 232 of `pickRandomWeighted`. -/
def pool (m : DynamicChallengeManager) : List ChallengeDef :=
  let pool_ := m.challenges_.filter m.eligible
  if pool_.isEmpty then m.challenges_ else pool_

/-- The `weights_` built by lines 223 to 232 of `pickRandomWeighted`. -/
def weights (m : DynamicChallengeManager) : List ℚ :=
  m.pool.map (fun d => fmax (1 / 10000) d.weight)

/-- The `total` of line 233, accumulated by `float` additions. -/
def total (weights_ : List ℚ) : ℚ := weights_.foldl (fun t w => fadd t w) 0

/-- The loop of lines 237 to 240 from index `i` on, `ws` being the weights
from `i` on: the index at which it returns, if it does. -/
def scan (r : ℚ) : List ℚ → ℚ → Nat → Option Nat
  | [], _, _ => none
  | w :: ws, acc, i => if r ≤ fadd acc w then some i else scan r ws (fadd acc w) (i + 1)

/-- Lines 236 to 241 of `pickRandomWeighted` for the draw `r`: the index in
the pool of the entry returned.  `none` stands for `pool_.back()` of an empty
pool, which is undefined. -/
def pickIndex (weights_ : List ℚ) (r : ℚ) : Option Nat :=
  match scan r weights_ 0 0 with
  | some i => some i
  | none => if weights_.isEmpty then none else some (weights_.length - 1)

/-- Lines 236 to 241 of `pickRandomWeighted` for the draw `r`. -/
def pickWith (m : DynamicChallengeManager) (r : ℚ) : Option ChallengeDef :=
  match pickIndex m.weights r with
  | some i => m.pool[i]?
  | none => none

/-- Lines 236 to 241 of `pickRandomWeighted` for a draw that may not be
finite, `acc` being finite: the test `r <= acc` of line 239 holds at the first
index for `-inf`, and at no index for `+inf` and for a NaN, which fall to the
`pool_.back()` of line 241. -/
def pickAt (m : DynamicChallengeManager) (r : F32) : Option ChallengeDef :=
  match r with
  | F32.fin x => m.pickWith x
  | F32.ninf => m.pool.head?
  | F32.inf => m.pool.getLast?
  | F32.nan => m.pool.getLast?

/-- The method `pickRandomWeighted`: the entry returned and the manager after
the draw. -/
def pickRandomWeighted (m : DynamicChallengeManager) :
    Option ChallengeDef × DynamicChallengeManager :=
  (m.pickAt (uniform 0 (total m.weights) (m.rng_ m.draws_.length)),
   { m with draws_ := m.draws_ ++ [DrawSite.pickRandomWeighted] })

/-- The copy of `d` with the floors of lines 251 and 252. -/
def coerce (d : ChallengeDef) : ChallengeDef :=
  { d with duration := fmax 1 d.duration, intensity := fmax (1 / 10) d.intensity }

/-- The method `beginCurrent`. -/
def beginCurrent (m : DynamicChallengeManager) : DynamicChallengeManager :=
  let cur := coerce m.current_
  { m with
    current_ := cur
    state_ := State.Active
    timeIn_ := 0
    log_ := m.log_ ++ Call.apply cur :: m.startListeners_.map (fun cb => Call.started cb cur) }

/-- The method `startNewChallenge`. -/
def startNewChallenge (m : DynamicChallengeManager) : DynamicChallengeManager :=
  if m.challenges_.isEmpty then m
  else
    match m.pickRandomWeighted with
    | (some d, m1) => beginCurrent { m1 with current_ := d }
    | (none, m1) => m1

/-- The method `endCurrentChallenge`. -/
def endCurrentChallenge (m : DynamicChallengeManager) : DynamicChallengeManager :=
  let m1 : DynamicChallengeManager :=
    { m with
      log_ := m.log_ ++ Call.revert m.current_ ::
        m.endListeners_.map (fun cb => Call.ended cb m.current_)
      havePrev_ := true
      prevType_ := m.current_.type
      state_ := State.Interval }
  let p := m1.randInRange m1.intervalRange
  { p.2 with countdown_ := p.1 }

/-- The method `update`. The `timeIn_ += dt` of line 173 is a `float`
addition. -/
def update (m : DynamicChallengeManager) (dt : ℚ) : DynamicChallengeManager :=
  match m.state_ with
  | State.BootDelay =>
    let m1 := { m with countdown_ := m.countdown_ - dt }
    if m1.countdown_ ≤ 0 then m1.startNewChallenge else m1
  | State.Active =>
    let m1 := { m with log_ := m.log_ ++ [Call.tick dt] }
    let m2 := { m1 with timeIn_ := fadd m1.timeIn_ dt }
    let progress := fclamp (m2.timeIn_ / fmax (1 / 100) m2.current_.duration) 0 1
    let m3 := { m2 with
      log_ := m2.log_ ++ m2.tickListeners_.map (fun cb => Call.ticked cb m2.current_ progress) }
    if m3.timeIn_ ≥ m3.current_.duration then m3.endCurrentChallenge else m3
  | State.Interval =>
    let m1 := { m with countdown_ := m.countdown_ - dt }
    if m1.countdown_ ≤ 0 then m1.startNewChallenge else m1

/-- The method `startSystem`. -/
def startSystem (m : DynamicChallengeManager) : DynamicChallengeManager :=
  let m1 := { m with state_ := State.BootDelay }
  let p := m1.randInRange m1.initialDelayRange
  { p.2 with countdown_ := p.1 }

/-- The method `triggerNow`. -/
def triggerNow (m : DynamicChallengeManager) (type : ChallengeType) :
    DynamicChallengeManager :=
  let m1 := if m.state_ = State.Active then m.endCurrentChallenge else m
  match m1.challenges_.find? (fun d => d.type == type) with
  | none => m1
  | some d => beginCurrent { m1 with current_ := d }

/-- Lines 165 and 182 of `update`: the countdown is decremented. -/
def countDown (m : DynamicChallengeManager) (dt : ℚ) : DynamicChallengeManager :=
  { m with countdown_ := m.countdown_ - dt }

/-- The `progress` of line 174 of `update` when `timeIn_` is `t`. -/
def progressAt (m : DynamicChallengeManager) (t : ℚ) : ℚ :=
  fclamp (t / fmax (1 / 100) m.current_.duration) 0 1

/-- Lines 172 to 175 of `update`: the environment tick, the advance of
`timeIn_` by the `float` addition of line 173, and the tick listeners. -/
def tickActive (m : DynamicChallengeManager) (dt : ℚ) : DynamicChallengeManager :=
  { m with
    timeIn_ := fadd m.timeIn_ dt
    log_ := m.log_ ++ Call.tick dt ::
      m.tickListeners_.map (fun cb =>
        Call.ticked cb m.current_ (fclamp ((fadd m.timeIn_ dt) / fmax (1 / 100) m.current_.duration) 0 1)) }

/-! ## Sequences of public calls -/

/-- A call of a public operation, or an assignment to one of the two public
range members. -/
inductive Op where
  | setChallenges (list : List ChallengeDef)
  | onStart (cb : Nat)
  | onEnd (cb : Nat)
  | onTick (cb : Nat)
  | update (dt : ℚ)
  | startSystem
  | triggerNow (type : ChallengeType)
  | setInitialDelayRange (p : ℚ × ℚ)
  | setIntervalRange (p : ℚ × ℚ)
  deriving DecidableEq

/-- The manager after one public call. -/
def step (m : DynamicChallengeManager) : Op → DynamicChallengeManager
  | Op.setChallenges list => m.setChallenges list
  | Op.onStart cb => m.onStart cb
  | Op.onEnd cb => m.onEnd cb
  | Op.onTick cb => m.onTick cb
  | Op.update dt => m.update dt
  | Op.startSystem => m.startSystem
  | Op.triggerNow type => m.triggerNow type
  | Op.setInitialDelayRange p => { m with initialDelayRange := p }
  | Op.setIntervalRange p => { m with intervalRange := p }

/-- The manager after a sequence of public calls. -/
def run (m : DynamicChallengeManager) (ops : List Op) : DynamicChallengeManager :=
  ops.foldl step m

/-- The manager after the calls `update dt` for the `dt` of `dts`, in order. -/
def updates (m : DynamicChallengeManager) (dts : List ℚ) : DynamicChallengeManager :=
  dts.foldl update m

end DynamicChallengeManager

/-! ## Reading the log -/

/-- Whether a call is `env.apply` or `env.revert`. -/
def Call.isSwitch : Call → Bool
  | Call.apply _ => true
  | Call.revert _ => true
  | _ => false


/-- Whether a call is `env.revert`. -/
def Call.isRevert : Call → Bool
  | Call.revert _ => true
  | _ => false

/-- The progress a call reports, when it is a call of a tick listener. -/
def Call.reported : Call → Option ℚ
  | Call.ticked _ _ p => some p
  | _ => none

/-- The progress values reported to the tick listeners in a log, in order. -/
def progressValues (l : List Call) : List ℚ := l.filterMap Call.reported

/-- The calls of a log that come before its first `env.revert`. -/
def untilRevert (l : List Call) : List Call := l.takeWhile (fun c => !c.isRevert)

/-- Reads a log from a moment at which `cur` is the definition applied and not
yet reverted (`none` when there is none): the definition applied and not yet
reverted at the end of the log, provided that every `env.apply` comes when no
definition is applied and every `env.revert` comes when its own argument is
the definition applied; `none` otherwise. -/
def bracket : Option ChallengeDef → List Call → Option (Option ChallengeDef)
  | cur, [] => some cur
  | none, Call.apply d :: l => bracket (some d) l
  | some _, Call.apply _ :: _ => none
  | some e, Call.revert d :: l => if d = e then bracket none l else none
  | none, Call.revert _ :: _ => none
  | cur, Call.tick _ :: l => bracket cur l
  | cur, Call.started _ _ :: l => bracket cur l
  | cur, Call.ended _ _ :: l => bracket cur l
  | cur, Call.ticked _ _ _ :: l => bracket cur l

/-- The definition a manager has applied and not yet reverted, according to
its state. -/
def DynamicChallengeManager.active (m : DynamicChallengeManager) : Option ChallengeDef :=
  if m.state_ = State.Active then some m.current_ else none

/-- The log is well bracketed and agrees with the state. -/
def Bracketed (m : DynamicChallengeManager) : Prop :=
  bracket none m.log_ = some m.active

/-- The calls a public call adds to the log. -/
def DynamicChallengeManager.callsOf (m : DynamicChallengeManager)
    (op : DynamicChallengeManager.Op) : List Call :=
  (m.step op).log_.drop m.log_.length

/-- The argument of a call, when it is `env.tick`. -/
def Call.tickArg : Call → Option ℚ
  | Call.tick dt => some dt
  | _ => none

/-- The arguments of the `env.tick` calls of a log, in order. -/
def envTicks (l : List Call) : List ℚ := l.filterMap Call.tickArg

/-- Whether a public call only configures the manager: it sets the catalog,
registers a listener or assigns a range. -/
def DynamicChallengeManager.Op.isSetup : DynamicChallengeManager.Op → Bool
  | Op.setChallenges _ => true
  | Op.onStart _ => true
  | Op.onEnd _ => true
  | Op.onTick _ => true
  | Op.setInitialDelayRange _ => true
  | Op.setIntervalRange _ => true
  | _ => false

/-- The progress as the specification words it: `clamp(elapsed/duration, 0, 1)`. -/
def specProgress (elapsed duration : ℚ) : ℚ := max 0 (min 1 (elapsed / duration))

/-! ## The catalog of the demo and concrete managers -/

/-- The function `defaultChallenges`. -/
def defaultChallenges : List ChallengeDef :=
  [ { id := "meteor", displayName := "Meteor Shower",
      description := "Meteors crash from the sky — take cover!",
      type := ChallengeType.MeteorShower, duration := 25, intensity := 1, weight := 1,
      canRepeatConsecutively := false, spawnCount := 25, spawnRadius := 45 },
    { id := "vines", displayName := "Vine Overgrowth",
      description := "Vines rapidly block paths and reshape routes.",
      type := ChallengeType.VineOvergrowth, duration := 30, intensity := 6 / 5,
      weight := 4 / 5, canRepeatConsecutively := false, spawnCount := 18,
      spawnRadius := 35 },
    { id := "acid", displayName := "Acid Rain",
      description := "Corrosive rain damages entities and structures.",
      type := ChallengeType.AcidRain, duration := 20, intensity := 11 / 10,
      weight := 7 / 10, canRepeatConsecutively := true, spawnCount := 20,
      spawnRadius := 40 },
    { id := "lowgrav", displayName := "Low Gravity",
      description := "Gravity weakens; jumps feel floaty.",
      type := ChallengeType.LowGravity, duration := 15, intensity := 1, weight := 1 / 2,
      canRepeatConsecutively := true, spawnCount := 20, spawnRadius := 40 },
    { id := "boost", displayName := "Resource Bloom",
      description := "Resource yields surge across the map!",
      type := ChallengeType.ResourceBoost, duration := 25, intensity := 3 / 2,
      weight := 3 / 5, canRepeatConsecutively := true, spawnCount := 20,
      spawnRadius := 40 } ]

/-- The canonical value one half. -/
def halfCanon : Canon := ⟨1 / 2, by norm_num, by norm_num⟩

/-- A generator that always produces one half. -/
def halfRng : Nat → Canon := fun _ => halfCanon

/-- A definition with duration and intensity zero. -/
def zeroDef : ChallengeDef :=
  { ChallengeDef.default with id := "zero", duration := 0, intensity := 0 }

/-- A fresh manager with the three listeners 1, 2, 3 and a catalog that has
the categories `MeteorShower` and `VineOvergrowth` only. -/
def twoKinds : DynamicChallengeManager :=
  ((((DynamicChallengeManager.new halfRng).setChallenges (defaultChallenges.take 2)).onStart
    1).onEnd 2).onTick 3

/-- The manager `twoKinds` after `triggerNow(MeteorShower)`: the meteor shower
is active. -/
def meteorActive : DynamicChallengeManager :=
  twoKinds.triggerNow ChallengeType.MeteorShower

/-- The manager `meteorActive` after `update(24.999998092651367)`, a binary32
number: the meteor shower, which lasts 25 seconds, is active with that elapsed
time. -/
def meteorNearEnd : DynamicChallengeManager :=
  meteorActive.update (13107199 / 524288)

/-- A freshly constructed manager after `initialDelayRange = {-3e38f, 3e38f}`,
both ends finite binary32 numbers. -/
def wideRange : DynamicChallengeManager :=
  (DynamicChallengeManager.new halfRng).step
    (DynamicChallengeManager.Op.setInitialDelayRange
      (-300000000549775575777803994281145270272, 300000000549775575777803994281145270272))

/-- The manager after the demo catalog is set, the meteor shower is forced
and one long `update` ends it: the state is `Interval` and the previous
category is `MeteorShower`. -/
def meteorDone : DynamicChallengeManager :=
  (DynamicChallengeManager.new halfRng).run
    [DynamicChallengeManager.Op.setChallenges defaultChallenges,
      DynamicChallengeManager.Op.onStart 1, DynamicChallengeManager.Op.onEnd 2,
      DynamicChallengeManager.Op.onTick 3,
      DynamicChallengeManager.Op.triggerNow ChallengeType.MeteorShower,
      DynamicChallengeManager.Op.update 100]

/-- A fresh manager with one start listener whose catalog is the single
definition `zeroDef`. -/
def zeroManager : DynamicChallengeManager :=
  ((DynamicChallengeManager.new halfRng).setChallenges [zeroDef]).onStart 1

/-- The definition `zeroDef` with duration 1 and intensity 0.1. -/
def zeroCoerced : ChallengeDef :=
  { zeroDef with duration := 1, intensity := 1 / 10 }

/-- The calls made by three `update(10)` from `meteorActive`, whose event
lasts 25 seconds: progress 0.4, then 0.8, then 1 followed by the end
procedure. -/
def meteorRunCalls : List Call :=
  [Call.tick 10, Call.ticked 3 meteorActive.current_ (2 / 5),
   Call.tick 10, Call.ticked 3 meteorActive.current_ (4 / 5),
   Call.tick 10, Call.ticked 3 meteorActive.current_ 1,
   Call.revert meteorActive.current_, Call.ended 2 meteorActive.current_]

/-- A fresh manager with the demo catalog after `triggerNow(MeteorShower)`:
the meteor shower is active. -/
def demoMeteor : DynamicChallengeManager :=
  (DynamicChallengeManager.new halfRng).run
    [DynamicChallengeManager.Op.setChallenges defaultChallenges,
      DynamicChallengeManager.Op.onStart 1, DynamicChallengeManager.Op.onEnd 2,
      DynamicChallengeManager.Op.onTick 3,
      DynamicChallengeManager.Op.triggerNow ChallengeType.MeteorShower]

/-- The manager `demoMeteor` after `startSystem()` and `update(100)`. -/
def demoRestarted : DynamicChallengeManager :=
  demoMeteor.run
    [DynamicChallengeManager.Op.startSystem, DynamicChallengeManager.Op.update 100]

/-- A fresh manager after the demo catalog is set, the meteor shower is forced
and two `update` let 15 of its 25 seconds pass. -/
def demoTicked : DynamicChallengeManager :=
  (DynamicChallengeManager.new halfRng).run
    [DynamicChallengeManager.Op.setChallenges defaultChallenges,
      DynamicChallengeManager.Op.triggerNow ChallengeType.MeteorShower,
      DynamicChallengeManager.Op.update 10, DynamicChallengeManager.Op.update 5]

/-- A fresh manager after the demo catalog is set and one start listener is
registered; `startSystem` was not called. -/
def demoFresh : DynamicChallengeManager :=
  (DynamicChallengeManager.new halfRng).run
    [DynamicChallengeManager.Op.setChallenges defaultChallenges,
      DynamicChallengeManager.Op.onStart 1]

end Groot

namespace Groot

open DynamicChallengeManager

/-! ## Properties of the rounding -/

theorem roundEven_bounds (y : ℚ) : y - 1 / 2 ≤ roundEven y ∧ (roundEven y : ℚ) ≤ y + 1 / 2 := by
  have h1 : (⌊y⌋ : ℚ) ≤ y := Int.floor_le y
  have h2 : y < ⌊y⌋ + 1 := Int.lt_floor_add_one y
  unfold roundEven
  split_ifs with a b c
  · constructor <;> linarith
  · push_cast; constructor <;> linarith
  · constructor <;> linarith
  · push_cast; constructor <;> linarith

theorem roundEven_intCast (n : ℤ) : roundEven (n : ℚ) = n := by
  unfold roundEven
  simp

theorem roundEven_mono (y z : ℚ) (h : y ≤ z) : roundEven y ≤ roundEven z := by
  by_contra hlt
  push_neg at hlt
  have hy := (roundEven_bounds y).2
  have hz := (roundEven_bounds z).1
  have h1 : (roundEven z : ℚ) + 1 ≤ roundEven y := by exact_mod_cast hlt
  have hyz : y = z := by linarith
  rw [hyz] at hlt
  exact lt_irrefl _ hlt

theorem half_pow (p : ℚ) (j : Nat) : p / 2 / 2 ^ j = p / 2 ^ (j + 1) := by
  rw [div_div, pow_succ, mul_comm]

theorem ulpAt_scale (j : Nat) :
    8388608 * ulpAt j = 170141183460469231731687303715884105728 / 2 ^ j := by
  unfold ulpAt
  rw [mul_div_cancel₀]
  norm_num

theorem ulpFrom_spec (a : ℚ) :
    ∀ (k : Nat) (p : ℚ), ∃ j, j ≤ k ∧ ulpFrom a k p = p / 2 ^ j / 8388608 ∧
      (j < k → p / 2 ^ j ≤ a) ∧ ∀ i, i < j → a < p / 2 ^ i := by
  intro k
  induction k with
  | zero =>
    intro p
    exact ⟨0, le_refl _, by simp [ulpFrom], by simp, by simp⟩
  | succ k ih =>
    intro p
    by_cases hp : p ≤ a
    · exact ⟨0, Nat.zero_le _, by simp [ulpFrom, hp], by simpa using hp, by simp⟩
    · obtain ⟨j, hj, he, h1, h2⟩ := ih (p / 2)
      refine ⟨j + 1, by omega, ?_, ?_, ?_⟩
      · simp only [ulpFrom, hp, if_false, he, half_pow]
      · intro hlt
        have := h1 (by omega)
        rwa [half_pow] at this
      · intro i hi
        cases i with
        | zero => simpa using lt_of_not_ge hp
        | succ i =>
          have := h2 i (by omega)
          rwa [half_pow] at this

theorem ulpFrom_eq (a : ℚ) (k : Nat) (p : ℚ) (j : Nat) (hj : j ≤ k)
    (h1 : j < k → p / 2 ^ j ≤ a) (h2 : ∀ i, i < j → a < p / 2 ^ i) :
    ulpFrom a k p = p / 2 ^ j / 8388608 := by
  obtain ⟨j0, hj0, he, g1, g2⟩ := ulpFrom_spec a k p
  rcases Nat.lt_trichotomy j0 j with h | h | h
  · exact absurd (g1 (by omega)) (not_le.2 (h2 j0 h))
  · rw [he, h]
  · exact absurd (h1 (by omega)) (not_le.2 (g2 j h))

theorem ulpAt_pos (j : Nat) : 0 < ulpAt j := by
  unfold ulpAt
  positivity

theorem ulpAt_succ (j : Nat) : ulpAt j = 2 * ulpAt (j + 1) := by
  unfold ulpAt
  rw [← half_pow]
  ring

theorem ulpAt_anti (i j : Nat) (h : i ≤ j) : ulpAt j ≤ ulpAt i := by
  induction j with
  | zero =>
    have : i = 0 := by omega
    rw [this]
  | succ j ih =>
    rcases Nat.lt_or_ge i (j + 1) with hlt | hge
    · have := ih (by omega)
      have h2 := ulpAt_succ j
      have h3 := ulpAt_pos (j + 1)
      linarith
    · have : i = j + 1 := by omega
      rw [this]

/-- The unit in the last place of `x`: its index, its value and the binade
of `x`. -/
theorem ulp32_spec (x : ℚ) :
    ∃ j, j ≤ 253 ∧ ulp32 x = ulpAt j ∧ (j < 253 → 8388608 * ulpAt j ≤ |x|) ∧
      (0 < j → |x| < 16777216 * ulpAt j) := by
  obtain ⟨j, hj, he, h1, h2⟩ := ulpFrom_spec |x| 253 170141183460469231731687303715884105728
  refine ⟨j, hj, he, ?_, ?_⟩
  · intro hlt
    have := h1 hlt
    rw [ulpAt_scale]
    exact this
  · intro hpos
    have := h2 (j - 1) (by omega)
    have hs := ulpAt_succ (j - 1)
    rw [Nat.sub_add_cancel hpos] at hs
    calc |x| < 170141183460469231731687303715884105728 / 2 ^ (j - 1) := this
      _ = 8388608 * ulpAt (j - 1) := (ulpAt_scale _).symm
      _ = 16777216 * ulpAt j := by rw [hs]; ring

theorem ulp32_eq (x : ℚ) (j : Nat) (hj : j ≤ 253) (h1 : j < 253 → 8388608 * ulpAt j ≤ |x|)
    (h2 : 0 < j → |x| < 16777216 * ulpAt j) : ulp32 x = ulpAt j := by
  apply ulpFrom_eq _ _ _ j hj
  · intro hlt
    have := h1 hlt
    rwa [ulpAt_scale] at this
  · intro i hi
    have hpos : 0 < j := by omega
    have := h2 hpos
    have hs := ulpAt_succ (j - 1)
    rw [Nat.sub_add_cancel hpos] at hs
    have ha := ulpAt_anti i (j - 1) (by omega)
    calc |x| < 16777216 * ulpAt j := this
      _ = 8388608 * ulpAt (j - 1) := by rw [hs]; ring
      _ ≤ 8388608 * ulpAt i := by linarith
      _ = 170141183460469231731687303715884105728 / 2 ^ i := ulpAt_scale _

theorem ulp32_pos (x : ℚ) : 0 < ulp32 x := by
  obtain ⟨j, _, he, _, _⟩ := ulp32_spec x
  rw [he]
  exact ulpAt_pos j

theorem round32_nonneg (x : ℚ) (h : 0 ≤ x) : 0 ≤ round32 x := by
  unfold round32
  have hu := ulp32_pos x
  have h0 : (0 : ℤ) ≤ roundEven (x / ulp32 x) := by
    have := roundEven_mono 0 (x / ulp32 x) (div_nonneg h (le_of_lt hu))
    rwa [show roundEven (0 : ℚ) = 0 from roundEven_intCast 0] at this
  have h1 : (0 : ℚ) ≤ roundEven (x / ulp32 x) := by exact_mod_cast h0
  exact mul_nonneg h1 (le_of_lt hu)

theorem round32_nonpos (x : ℚ) (h : x ≤ 0) : round32 x ≤ 0 := by
  unfold round32
  have hu := ulp32_pos x
  have h0 : roundEven (x / ulp32 x) ≤ (0 : ℤ) := by
    have := roundEven_mono (x / ulp32 x) 0 (div_nonpos_of_nonpos_of_nonneg h (le_of_lt hu))
    rwa [show roundEven (0 : ℚ) = 0 from roundEven_intCast 0] at this
  have h1 : (roundEven (x / ulp32 x) : ℚ) ≤ 0 := by exact_mod_cast h0
  exact mul_nonpos_of_nonpos_of_nonneg h1 (le_of_lt hu)

/-- The integer a rounding returns is at least `n` when the quotient is. -/
theorem roundEven_ge (n : ℤ) (y : ℚ) (h : (n : ℚ) ≤ y) : (n : ℚ) ≤ roundEven y := by
  have := roundEven_mono n y h
  rw [roundEven_intCast] at this
  exact_mod_cast this

theorem roundEven_le (n : ℤ) (y : ℚ) (h : y ≤ (n : ℚ)) : (roundEven y : ℚ) ≤ n := by
  have := roundEven_mono y n h
  rw [roundEven_intCast] at this
  exact_mod_cast this

theorem round32_mono (x y : ℚ) (h : x ≤ y) : round32 x ≤ round32 y := by
  obtain ⟨jx, hjx, hex, lx, ux⟩ := ulp32_spec x
  obtain ⟨jy, hjy, hey, ly, uy⟩ := ulp32_spec y
  have px := ulpAt_pos jx
  have py := ulpAt_pos jy
  rcases le_or_lt 0 x with h0 | h0
  · -- both are non-negative
    have hy0 : 0 ≤ y := le_trans h0 h
    rw [abs_of_nonneg h0] at lx ux
    rw [abs_of_nonneg hy0] at ly uy
    rcases Nat.lt_trichotomy jx jy with hj | hj | hj
    · exfalso
      have h3 := lx (by omega)
      have h4 := uy (by omega)
      have ha := ulpAt_anti jx (jy - 1) (by omega)
      have hs := ulpAt_succ (jy - 1)
      rw [Nat.sub_add_cancel (by omega : 1 ≤ jy)] at hs
      linarith
    · unfold round32
      rw [hex, hey, hj]
      have := roundEven_mono (x / ulpAt jy) (y / ulpAt jy) (div_le_div_of_nonneg_right h (le_of_lt py))
      have hc : (roundEven (x / ulpAt jy) : ℚ) ≤ roundEven (y / ulpAt jy) := by exact_mod_cast this
      exact mul_le_mul_of_nonneg_right hc (le_of_lt py)
    · unfold round32
      rw [hex, hey]
      have h1 : (roundEven (x / ulpAt jx) : ℚ) ≤ (16777216 : ℤ) := by
        apply roundEven_le
        rw [div_le_iff₀ px]
        push_cast
        exact le_of_lt (ux (by omega))
      have h2 : ((8388608 : ℤ) : ℚ) ≤ roundEven (y / ulpAt jy) := by
        apply roundEven_ge
        rw [le_div_iff₀ py]
        push_cast
        exact ly (by omega)
      have ha := ulpAt_anti jy (jx - 1) (by omega)
      have hs := ulpAt_succ (jx - 1)
      rw [Nat.sub_add_cancel (by omega : 1 ≤ jx)] at hs
      push_cast at h1 h2
      calc (roundEven (x / ulpAt jx) : ℚ) * ulpAt jx ≤ 16777216 * ulpAt jx :=
            mul_le_mul_of_nonneg_right h1 (le_of_lt px)
        _ = 8388608 * ulpAt (jx - 1) := by rw [hs]; ring
        _ ≤ 8388608 * ulpAt jy := by linarith
        _ ≤ roundEven (y / ulpAt jy) * ulpAt jy :=
            mul_le_mul_of_nonneg_right h2 (le_of_lt py)
  · rcases le_or_lt y 0 with hy0 | hy0
    · -- both are non-positive
      rw [abs_of_neg h0] at lx ux
      rw [abs_of_nonpos hy0] at ly uy
      rcases Nat.lt_trichotomy jx jy with hj | hj | hj
      · unfold round32
        rw [hex, hey]
        have h1 : (roundEven (x / ulpAt jx) : ℚ) ≤ ((-8388608 : ℤ) : ℚ) := by
          apply roundEven_le
          rw [div_le_iff₀ px]
          push_cast
          have := lx (by omega)
          linarith
        have h2 : ((-16777216 : ℤ) : ℚ) ≤ roundEven (y / ulpAt jy) := by
          apply roundEven_ge
          rw [le_div_iff₀ py]
          push_cast
          have := uy (by omega)
          linarith
        have ha := ulpAt_anti jx (jy - 1) (by omega)
        have hs := ulpAt_succ (jy - 1)
        rw [Nat.sub_add_cancel (by omega : 1 ≤ jy)] at hs
        push_cast at h1 h2
        calc (roundEven (x / ulpAt jx) : ℚ) * ulpAt jx ≤ -8388608 * ulpAt jx :=
              mul_le_mul_of_nonneg_right h1 (le_of_lt px)
          _ ≤ -8388608 * ulpAt (jy - 1) := by linarith
          _ = -16777216 * ulpAt jy := by rw [hs]; ring
          _ ≤ roundEven (y / ulpAt jy) * ulpAt jy :=
              mul_le_mul_of_nonneg_right h2 (le_of_lt py)
      · unfold round32
        rw [hex, hey, hj]
        have := roundEven_mono (x / ulpAt jy) (y / ulpAt jy)
          (div_le_div_of_nonneg_right h (le_of_lt py))
        have hc : (roundEven (x / ulpAt jy) : ℚ) ≤ roundEven (y / ulpAt jy) := by
          exact_mod_cast this
        exact mul_le_mul_of_nonneg_right hc (le_of_lt py)
      · exfalso
        have h3 := ly (by omega)
        have h4 := ux (by omega)
        have ha := ulpAt_anti jy (jx - 1) (by omega)
        have hs := ulpAt_succ (jx - 1)
        rw [Nat.sub_add_cancel (by omega : 1 ≤ jx)] at hs
        linarith
    · exact le_trans (round32_nonpos x (le_of_lt h0)) (round32_nonneg y (le_of_lt hy0))

/-- A multiple of a unit in the last place with a significand of at most 24
bits is a value of the format: rounding keeps it. -/
theorem round32_fixed (n : ℤ) (j : Nat) (hj : j ≤ 253) (hlo : j < 253 → 8388608 ≤ |n|)
    (hhi : 0 < j → |n| ≤ 16777216) : round32 (n * ulpAt j) = n * ulpAt j := by
  have pj := ulpAt_pos j
  have habs : |(n : ℚ) * ulpAt j| = (|n| : ℤ) * ulpAt j := by
    rw [abs_mul, abs_of_pos pj, Int.cast_abs]
  by_cases htop : 0 < j ∧ |n| = 16777216
  · obtain ⟨hpos, hn⟩ := htop
    have hs := ulpAt_succ (j - 1)
    rw [Nat.sub_add_cancel hpos] at hs
    have hu : ulp32 (n * ulpAt j) = ulpAt (j - 1) := by
      apply ulp32_eq _ _ (by omega)
      · intro _
        rw [habs, hn, hs]
        push_cast
        linarith
      · intro hp
        have hs2 := ulpAt_succ (j - 1 - 1)
        rw [Nat.sub_add_cancel hp] at hs2
        have p1 := ulpAt_pos (j - 1)
        rw [habs, hn]
        push_cast
        linarith
    unfold round32
    rw [hu, hs]
    have p1 := ulpAt_pos j
    have hq : (n : ℚ) * ulpAt j / (2 * ulpAt j) = ((n / 2 : ℤ) : ℚ) := by
      have h2 : (2 : ℤ) ∣ n := by
        rcases abs_eq (by norm_num : (0 : ℤ) ≤ 16777216) |>.1 hn with h | h <;> rw [h] <;> decide
      rw [Int.cast_div h2 (by norm_num)]
      push_cast
      field_simp
      ring
    rw [hq, roundEven_intCast]
    have h2 : (2 : ℤ) ∣ n := by
      rcases abs_eq (by norm_num : (0 : ℤ) ≤ 16777216) |>.1 hn with h | h <;> rw [h] <;> decide
    rw [Int.cast_div h2 (by norm_num)]
    push_cast
    field_simp
    ring
  · have hu : ulp32 (n * ulpAt j) = ulpAt j := by
      apply ulp32_eq _ _ hj
      · intro hlt
        rw [habs]
        have : ((8388608 : ℤ) : ℚ) ≤ (|n| : ℤ) := by exact_mod_cast hlo hlt
        push_cast at this ⊢
        exact mul_le_mul_of_nonneg_right this (le_of_lt pj)
      · intro hpos
        rw [habs]
        have hle := hhi hpos
        have hne : |n| ≠ 16777216 := fun h => htop ⟨hpos, h⟩
        have hlt : |n| < 16777216 := lt_of_le_of_ne hle hne
        have : ((|n| : ℤ) : ℚ) < ((16777216 : ℤ) : ℚ) := by exact_mod_cast hlt
        push_cast at this ⊢
        exact mul_lt_mul_of_pos_right this pj
    unfold round32
    rw [hu, mul_div_assoc, div_self (ne_of_gt pj), mul_one, roundEven_intCast]

/-- Rounding returns a value of the format: rounding it again changes
nothing. -/
theorem round32_idem (x : ℚ) : round32 (round32 x) = round32 x := by
  obtain ⟨j, hj, he, lo, hi⟩ := ulp32_spec x
  have pj := ulpAt_pos j
  have hr : round32 x = roundEven (x / ulpAt j) * ulpAt j := by
    unfold round32
    rw [he]
  rw [hr]
  apply round32_fixed _ _ hj
  · intro hlt
    have h1 := lo hlt
    rcases le_or_lt 0 x with h0 | h0
    · rw [abs_of_nonneg h0] at h1
      have : ((8388608 : ℤ) : ℚ) ≤ roundEven (x / ulpAt j) := by
        apply roundEven_ge
        rw [le_div_iff₀ pj]
        push_cast
        exact h1
      have h2 : (8388608 : ℤ) ≤ roundEven (x / ulpAt j) := by exact_mod_cast this
      exact le_trans h2 (le_abs_self _)
    · rw [abs_of_neg h0] at h1
      have : (roundEven (x / ulpAt j) : ℚ) ≤ ((-8388608 : ℤ) : ℚ) := by
        apply roundEven_le
        rw [div_le_iff₀ pj]
        push_cast
        linarith
      have h2 : roundEven (x / ulpAt j) ≤ (-8388608 : ℤ) := by exact_mod_cast this
      have h3 := neg_le_abs (roundEven (x / ulpAt j))
      omega
  · intro hpos
    have h1 := hi hpos
    rw [abs_lt] at h1
    have ha : (roundEven (x / ulpAt j) : ℚ) ≤ ((16777216 : ℤ) : ℚ) := by
      apply roundEven_le
      rw [div_le_iff₀ pj]
      push_cast
      linarith
    have hb : ((-16777216 : ℤ) : ℚ) ≤ roundEven (x / ulpAt j) := by
      apply roundEven_ge
      rw [le_div_iff₀ pj]
      push_cast
      linarith
    have ha2 : roundEven (x / ulpAt j) ≤ (16777216 : ℤ) := by exact_mod_cast ha
    have hb2 : (-16777216 : ℤ) ≤ roundEven (x / ulpAt j) := by exact_mod_cast hb
    exact abs_le.2 ⟨hb2, ha2⟩

theorem overflow32_pos : (0 : ℚ) < overflow32 := by
  unfold overflow32
  norm_num

theorem fltMax_lt_overflow32 : fltMax < overflow32 := by
  unfold fltMax overflow32
  norm_num

theorem ofRat_fin (x : ℚ) (h1 : -overflow32 < x) (h2 : x < overflow32) :
    F32.ofRat x = F32.fin (round32 x) := by
  unfold F32.ofRat
  rw [if_neg (not_le.2 h2), if_neg (not_le.2 h1)]

theorem fin_le_fin (x y : ℚ) : F32.fin x ≤ F32.fin y ↔ x ≤ y := by
  show F32.ble (F32.fin x) (F32.fin y) = true ↔ _
  simp [F32.ble]

/-- A countdown of zero is not positive after a `dt ≥ 0` is subtracted. -/
theorem zero_sub_le (dt : ℚ) (h : 0 ≤ dt) : (0 : F32) - dt ≤ 0 := by
  show F32.ble (F32.ofRat (0 - dt)) (F32.fin 0) = true
  have hpos := overflow32_pos
  unfold F32.ofRat
  rw [if_neg (by linarith)]
  split
  · rfl
  · have := round32_nonpos (0 - dt) (by linarith)
    simpa [F32.ble] using this

theorem ulpAt_zero : ulpAt 0 = 20282409603651670423947251286016 := by
  unfold ulpAt
  norm_num

theorem ulpAt_pow (j : Nat) (hj : j ≤ 253) : ulpAt j = 2 ^ (253 - j) * ulpAt 253 := by
  unfold ulpAt
  have h : (2 : ℚ) ^ 253 = 2 ^ (253 - j) * 2 ^ j := by
    rw [← pow_add]
    congr 1
    omega
  rw [h]
  field_simp
  ring

/-- Rounding a value below the overflow threshold gives at most `fltMax`. -/
theorem round32_le_fltMax (x : ℚ) (h : x < overflow32) : round32 x ≤ fltMax := by
  have hz := ulpAt_zero
  have hp : round32 (170141183460469231731687303715884105728) =
      170141183460469231731687303715884105728 := by
    have := round32_fixed 8388608 0 (by norm_num) (fun _ => by norm_num) (fun _ => by norm_num)
    rw [hz] at this
    norm_num at this
    exact this
  rcases lt_or_le x 170141183460469231731687303715884105728 with hx | hx
  · have := round32_mono x _ (le_of_lt hx)
    rw [hp] at this
    unfold fltMax
    linarith
  · have hx0 : 0 ≤ x := by linarith
    have he : ulp32 x = ulpAt 0 := by
      apply ulp32_eq x 0 (by norm_num)
      · intro _
        rw [abs_of_nonneg hx0, hz]
        linarith
      · intro h0
        exact absurd h0 (lt_irrefl 0)
    unfold round32
    rw [he, hz]
    have hb := (roundEven_bounds (x / 20282409603651670423947251286016)).2
    have hq : x / 20282409603651670423947251286016 < 16777216 - 1 / 2 := by
      rw [div_lt_iff₀ (by norm_num)]
      unfold overflow32 at h
      linarith
    have hlt : (roundEven (x / 20282409603651670423947251286016) : ℚ) < 16777216 := by
      linarith
    have hint : roundEven (x / 20282409603651670423947251286016) < 16777216 := by
      exact_mod_cast hlt
    have hint2 : roundEven (x / 20282409603651670423947251286016) ≤ 16777215 := by omega
    have hq2 : (roundEven (x / 20282409603651670423947251286016) : ℚ) ≤ 16777215 := by
      exact_mod_cast hint2
    unfold fltMax
    nlinarith

/-- A value of the format is a multiple of the least unit in the last
place. -/
theorem float_grid (x : ℚ) (h : round32 x = x) : ∃ n : ℤ, x = n * ulpAt 253 := by
  obtain ⟨j, hj, he, _, _⟩ := ulp32_spec x
  refine ⟨roundEven (x / ulpAt j) * 2 ^ (253 - j), ?_⟩
  have hr : round32 x = roundEven (x / ulpAt j) * ulpAt j := by
    unfold round32
    rw [he]
  rw [h] at hr
  have hp := ulpAt_pow j hj
  push_cast
  rw [mul_assoc, ← hp]
  exact hr

/-- A multiple of the least unit in the last place below `2^(-125)` is a
value of the format. -/
theorem round32_grid_small (n : ℤ) (h : |(n : ℚ) * ulpAt 253| < 16777216 * ulpAt 253) :
    round32 (n * ulpAt 253) = n * ulpAt 253 := by
  have pj := ulpAt_pos 253
  apply round32_fixed n 253 (le_refl _)
  · intro hlt
    exact absurd hlt (lt_irrefl _)
  · intro _
    rw [abs_mul, abs_of_pos pj] at h
    have h2 : |(n : ℚ)| < 16777216 := lt_of_mul_lt_mul_right h (le_of_lt pj)
    have h3 : ((|n| : ℤ) : ℚ) < 16777216 := by
      rw [Int.cast_abs]
      exact h2
    have h4 : |n| < 16777216 := by exact_mod_cast h3
    omega

/-- Below a normal value `d` of the format, from `2^(-125)` on, the values up
to `d (1 - 2^(-24))` round to a value below `d`. -/
theorem round32_lt_of_le_pred (d x : ℚ) (hd : round32 d = d)
    (hlow : 16777216 * ulpAt 253 ≤ d) (hhigh : d ≤ fltMax)
    (hx : x ≤ d * (16777215 / 16777216)) : round32 x < d := by
  obtain ⟨j, hj, he, lo, hi⟩ := ulp32_spec d
  have p253 := ulpAt_pos 253
  have hd0 : 0 < d := by linarith
  have habs : |d| = d := abs_of_pos hd0
  rw [habs] at lo hi
  have hj253 : j < 253 := by
    rcases Nat.lt_or_ge j 253 with h | h
    · exact h
    · have hje : j = 253 := by omega
      have := hi (by omega)
      rw [hje] at this
      linarith
  have hlo := lo hj253
  have pj := ulpAt_pos j
  have hup : d < 16777216 * ulpAt j := by
    rcases Nat.eq_zero_or_pos j with h0 | hpos
    · rw [h0, ulpAt_zero]
      unfold fltMax at hhigh
      linarith
    · exact hi hpos
  have hdn : d = roundEven (d / ulpAt j) * ulpAt j := by
    have : round32 d = roundEven (d / ulpAt j) * ulpAt j := by
      unfold round32
      rw [he]
    rw [hd] at this
    exact this
  have hp : round32 (8388608 * ulpAt j) = 8388608 * ulpAt j := by
    have := round32_fixed 8388608 j hj (fun _ => by norm_num) (fun _ => by norm_num)
    norm_num at this
    exact this
  rcases lt_or_le x (8388608 * ulpAt j) with hxp | hxp
  · rcases lt_or_le (8388608 * ulpAt j) d with hdp | hdp
    · have := round32_mono x _ (le_of_lt hxp)
      rw [hp] at this
      linarith
    · have hde : d = 8388608 * ulpAt j := le_antisymm hdp hlo
      have hs := ulpAt_succ j
      have pj1 := ulpAt_pos (j + 1)
      have hq : round32 (16777215 * ulpAt (j + 1)) = 16777215 * ulpAt (j + 1) := by
        have := round32_fixed 16777215 (j + 1) (by omega) (fun _ => by norm_num)
          (fun _ => by norm_num)
        norm_num at this
        exact this
      have hxq : x ≤ 16777215 * ulpAt (j + 1) := by
        rw [hde, hs] at hx
        linarith
      have := round32_mono x _ hxq
      rw [hq] at this
      rw [hde, hs]
      linarith
  · have hxd : x < d := by
      have : d * (16777215 / 16777216) < d := by linarith
      linarith
    have hx0 : 0 < x := by linarith
    have hex : ulp32 x = ulpAt j := by
      apply ulp32_eq x j hj
      · intro _
        rw [abs_of_pos hx0]
        exact hxp
      · intro _
        rw [abs_of_pos hx0]
        linarith
    have hrx : round32 x = roundEven (x / ulpAt j) * ulpAt j := by
      unfold round32
      rw [hex]
    have hdq : d / ulpAt j = roundEven (d / ulpAt j) := by
      rw [div_eq_iff (ne_of_gt pj)]
      exact hdn
    have hn1 : (8388608 : ℚ) < roundEven (d / ulpAt j) := by
      rw [← hdq, lt_div_iff₀ pj]
      linarith
    have hn2 : (8388608 : ℤ) < roundEven (d / ulpAt j) := by exact_mod_cast hn1
    have hn3 : (8388609 : ℤ) ≤ roundEven (d / ulpAt j) := by omega
    have hn4 : (8388609 : ℚ) ≤ roundEven (d / ulpAt j) := by exact_mod_cast hn3
    have hxw : x / ulpAt j ≤ roundEven (d / ulpAt j) * (16777215 / 16777216) := by
      rw [div_le_iff₀ pj]
      calc x ≤ d * (16777215 / 16777216) := hx
        _ = roundEven (d / ulpAt j) * (16777215 / 16777216) * ulpAt j := by
          rw [← hdq]
          field_simp
          ring
    have hb := (roundEven_bounds (x / ulpAt j)).2
    have hlt : (roundEven (x / ulpAt j) : ℚ) < roundEven (d / ulpAt j) := by linarith
    have hlt2 : roundEven (x / ulpAt j) < roundEven (d / ulpAt j) := by exact_mod_cast hlt
    rw [hrx]
    calc (roundEven (x / ulpAt j) : ℚ) * ulpAt j < roundEven (d / ulpAt j) * ulpAt j :=
          mul_lt_mul_of_pos_right hlt pj
      _ = d := hdn.symm

/-- The `float` product of a canonical value below 1 and the `float` width of
a range does not exceed the exact width. -/
theorem scale_le_width (lo hi u : ℚ) (hlo : round32 lo = lo) (hhi : round32 hi = hi)
    (hle : lo ≤ hi) (hw : hi - lo < overflow32) (hu : u ≤ 16777215 / 16777216) :
    round32 (u * round32 (hi - lo)) ≤ hi - lo := by
  have hD0 : 0 ≤ hi - lo := by linarith
  have hd0 : 0 ≤ round32 (hi - lo) := round32_nonneg _ hD0
  have hdid := round32_idem (hi - lo)
  have hud : u * round32 (hi - lo) ≤ round32 (hi - lo) := by nlinarith
  have hyd : round32 (u * round32 (hi - lo)) ≤ round32 (hi - lo) := by
    have := round32_mono _ _ hud
    rwa [hdid] at this
  by_contra hgt
  have hgt' : hi - lo < round32 (u * round32 (hi - lo)) := lt_of_not_ge hgt
  have hdy : round32 (hi - lo) ≤ round32 (u * round32 (hi - lo)) := by
    have := round32_mono _ _ (le_of_lt hgt')
    rwa [round32_idem] at this
  have hyeq : round32 (u * round32 (hi - lo)) = round32 (hi - lo) := le_antisymm hyd hdy
  have hDd : hi - lo < round32 (hi - lo) := by linarith
  obtain ⟨n1, h1⟩ := float_grid lo hlo
  obtain ⟨n2, h2⟩ := float_grid hi hhi
  have hgrid : hi - lo = ((n2 - n1 : ℤ) : ℚ) * ulpAt 253 := by
    push_cast
    rw [sub_mul, ← h1, ← h2]
  have hbig : 16777216 * ulpAt 253 ≤ hi - lo := by
    by_contra hsmall
    have hs : |((n2 - n1 : ℤ) : ℚ) * ulpAt 253| < 16777216 * ulpAt 253 := by
      rw [← hgrid, abs_of_nonneg hD0]
      exact lt_of_not_ge hsmall
    have := round32_grid_small (n2 - n1) hs
    rw [← hgrid] at this
    linarith
  have hlt := round32_lt_of_le_pred (round32 (hi - lo)) (u * round32 (hi - lo)) hdid
    (by linarith) (round32_le_fltMax _ hw) (by nlinarith)
  linarith

/-- The draw of a range whose ends are finite `float` values and whose width
does not overflow, for a canonical value below 1: a finite value of the
range. -/
theorem uniform_mem (lo hi : ℚ) (u : Canon) (hlo : isFloat lo) (hhi : isFloat hi)
    (hle : lo ≤ hi) (hw : hi - lo < overflow32) (hu : u.val ≤ 16777215 / 16777216) :
    ∃ x, uniform lo hi u = F32.fin x ∧ lo ≤ x ∧ x ≤ hi := by
  have hpos := overflow32_pos
  have hmax := fltMax_lt_overflow32
  have hD0 : 0 ≤ hi - lo := by linarith
  have hd0 : 0 ≤ round32 (hi - lo) := round32_nonneg _ hD0
  have hdmax := round32_le_fltMax _ hw
  have hud : u.val * round32 (hi - lo) ≤ round32 (hi - lo) := by
    have := u.le_one
    nlinarith
  have hud0 : 0 ≤ u.val * round32 (hi - lo) := mul_nonneg u.nonneg hd0
  have hy0 : 0 ≤ round32 (u.val * round32 (hi - lo)) := round32_nonneg _ hud0
  have hyD := scale_le_width lo hi u.val hlo.1 hhi.1 hle hw hu
  have hl := abs_le.1 hlo.2
  have hh := abs_le.1 hhi.2
  have e1 : F32.ofRat (hi - lo) = F32.fin (round32 (hi - lo)) :=
    ofRat_fin _ (by linarith) hw
  have e2 : F32.ofRat (u.val * round32 (hi - lo)) =
      F32.fin (round32 (u.val * round32 (hi - lo))) :=
    ofRat_fin _ (by linarith) (by linarith)
  have e3 : F32.ofRat (round32 (u.val * round32 (hi - lo)) + lo) =
      F32.fin (round32 (round32 (u.val * round32 (hi - lo)) + lo)) :=
    ofRat_fin _ (by linarith) (by linarith)
  refine ⟨round32 (round32 (u.val * round32 (hi - lo)) + lo), ?_, ?_, ?_⟩
  · unfold uniform
    rw [e1]
    show (F32.ofRat (u.val * round32 (hi - lo))).add lo = _
    rw [e2]
    exact e3
  · have := round32_mono lo (round32 (u.val * round32 (hi - lo)) + lo) (by linarith)
    rwa [hlo.1] at this
  · have := round32_mono (round32 (u.val * round32 (hi - lo)) + lo) hi (by linarith)
    rwa [hhi.1] at this

/-! ## The branches of `update` -/

/-- The method `update` in the states `BootDelay` and `Interval`. -/
theorem update_waiting (m : DynamicChallengeManager) (dt : ℚ) (hs : m.state_ ≠ State.Active) :
    m.update dt =
      if (m.countDown dt).countdown_ ≤ 0 then (m.countDown dt).startNewChallenge
      else m.countDown dt := by
  unfold update countDown
  cases h : m.state_ with
  | BootDelay => rfl
  | Interval => rfl
  | Active => exact absurd h hs

/-- The method `update` in the state `Active`. -/
theorem update_active (m : DynamicChallengeManager) (dt : ℚ) (hs : m.state_ = State.Active) :
    m.update dt =
      if (m.tickActive dt).timeIn_ ≥ (m.tickActive dt).current_.duration then
        (m.tickActive dt).endCurrentChallenge
      else m.tickActive dt := by
  unfold update tickActive
  simp [hs]

/-! ## The selector always returns a pool entry -/

theorem pool_subset (m : DynamicChallengeManager) : ∀ d ∈ m.pool, d ∈ m.challenges_ := by
  intro d hd
  unfold pool at hd
  simp only at hd
  split at hd
  · exact hd
  · exact (List.mem_filter.1 hd).1

theorem pool_ne_nil (m : DynamicChallengeManager) (h : m.challenges_ ≠ []) : m.pool ≠ [] := by
  unfold pool
  simp only
  split
  · exact h
  · rename_i hne
    simpa using hne

theorem weights_length (m : DynamicChallengeManager) : m.weights.length = m.pool.length := by
  simp [weights]

theorem scan_bound (r : ℚ) :
    ∀ (ws : List ℚ) (acc : ℚ) (i j : Nat), scan r ws acc i = some j →
      i ≤ j ∧ j < i + ws.length
  | [], _, _, _, h => by simp [scan] at h
  | w :: ws, acc, i, j, h => by
    unfold scan at h
    split at h
    · have hj : i = j := by simpa using h
      subst hj
      simp
    · have := scan_bound r ws (fadd acc w) (i + 1) j h
      simp only [List.length_cons]
      omega

theorem pickIndex_lt (ws : List ℚ) (r : ℚ) (h : ws ≠ []) :
    ∃ i, pickIndex ws r = some i ∧ i < ws.length := by
  unfold pickIndex
  cases hs : scan r ws 0 0 with
  | some i =>
    have := scan_bound r ws 0 0 i hs
    exact ⟨i, rfl, by omega⟩
  | none =>
    have hlen : 0 < ws.length := List.length_pos.2 h
    refine ⟨ws.length - 1, ?_, by omega⟩
    simp [h]

/-- For a catalog that is not empty, lines 236 to 241 return an entry of the
pool, whatever the draw. -/
theorem pickWith_mem (m : DynamicChallengeManager) (r : ℚ) (h : m.challenges_ ≠ []) :
    ∃ d, m.pickWith r = some d ∧ d ∈ m.pool := by
  have hw : m.weights ≠ [] := by
    intro hw
    have := weights_length m
    rw [hw] at this
    exact pool_ne_nil m h (List.length_eq_zero.1 this.symm)
  obtain ⟨i, hi, hlt⟩ := pickIndex_lt m.weights r hw
  rw [weights_length] at hlt
  refine ⟨m.pool[i], ?_, List.getElem_mem _⟩
  simp [pickWith, hi, List.getElem?_eq_getElem hlt]

theorem pickAt_mem (m : DynamicChallengeManager) (r : F32) (h : m.challenges_ ≠ []) :
    ∃ d, m.pickAt r = some d ∧ d ∈ m.pool := by
  have hp := pool_ne_nil m h
  cases r with
  | fin x => exact pickWith_mem m x h
  | ninf =>
    cases hpool : m.pool with
    | nil => exact absurd hpool hp
    | cons d ds => exact ⟨d, by simp [pickAt, hpool], by simp⟩
  | inf =>
    exact ⟨m.pool.getLast hp, by simp [pickAt, List.getLast?_eq_getLast _ hp],
      List.getLast_mem hp⟩
  | nan =>
    exact ⟨m.pool.getLast hp, by simp [pickAt, List.getLast?_eq_getLast _ hp],
      List.getLast_mem hp⟩

/-- The two outcomes of `startNewChallenge`: nothing at all for an empty
catalog, and otherwise one draw and the begin procedure for a pool entry. -/
theorem startNewChallenge_cases (m : DynamicChallengeManager) :
    (m.challenges_ = [] ∧ m.startNewChallenge = m) ∨
    (m.challenges_ ≠ [] ∧ ∃ d, d ∈ m.pool ∧
      m.pickAt (uniform 0 (total m.weights) (m.rng_ m.draws_.length)) = some d ∧
      m.startNewChallenge =
        beginCurrent { m with
          current_ := d
          draws_ := m.draws_ ++ [DrawSite.pickRandomWeighted] }) := by
  by_cases h : m.challenges_ = []
  · left
    exact ⟨h, by simp [startNewChallenge, h]⟩
  · right
    obtain ⟨d, hd, hmem⟩ := pickAt_mem m
      (uniform 0 (total m.weights) (m.rng_ m.draws_.length)) h
    refine ⟨h, d, hmem, hd, ?_⟩
    simp [startNewChallenge, h, pickRandomWeighted, hd]

/-! ## `triggerNow` -/

/-- C1, as stated, fails: in `meteorActive` the meteor shower is active and no
catalog entry has the category `LowGravity`, yet `triggerNow(LowGravity)`
calls `env.revert` and the end listener with the meteor shower and leaves the
state `Interval`. So it is not true that `triggerNow` with a category absent
from the catalog leaves an active event untouched. -/
theorem triggerNow_unmatched_active_not_untouched :
    (meteorActive.state_ = State.Active ∧
      (∀ d ∈ meteorActive.challenges_, d.type ≠ ChallengeType.LowGravity) ∧
      (meteorActive.triggerNow ChallengeType.LowGravity).state_ = State.Interval ∧
      (meteorActive.triggerNow ChallengeType.LowGravity).log_ =
        meteorActive.log_ ++
          [Call.revert meteorActive.current_, Call.ended 2 meteorActive.current_]) ∧
    ¬ ∀ (m : DynamicChallengeManager) (type : ChallengeType),
        m.state_ = State.Active → (∀ d ∈ m.challenges_, d.type ≠ type) →
        (m.triggerNow type).state_ = State.Active ∧
        (m.triggerNow type).current_ = m.current_ ∧
        (m.triggerNow type).timeIn_ = m.timeIn_ ∧
        (m.triggerNow type).log_ = m.log_ := by
  refine ⟨⟨by decide, by decide, by decide, by decide!⟩, ?_⟩
  intro h
  have h1 := (h meteorActive ChallengeType.LowGravity (by decide) (by decide)).1
  revert h1
  decide

/-- C1, amended: when an event is active and no catalog entry has the
category, `triggerNow` runs the end procedure of the active event and begins
nothing. The log gains `env.revert` of the active definition followed by the
end listeners in registration order, and no other call; the state becomes
`Interval`, the category of the ended event is recorded, the countdown is a
draw from `intervalRange`, and the active copy and the elapsed time are
unchanged. -/
theorem triggerNow_unmatched_active (m : DynamicChallengeManager) (type : ChallengeType)
    (hact : m.state_ = State.Active) (hno : ∀ d ∈ m.challenges_, d.type ≠ type) :
    (m.triggerNow type).log_ =
        m.log_ ++ Call.revert m.current_ ::
          m.endListeners_.map (fun cb => Call.ended cb m.current_) ∧
      (m.triggerNow type).state_ = State.Interval ∧
      (m.triggerNow type).havePrev_ = true ∧
      (m.triggerNow type).prevType_ = m.current_.type ∧
      (m.triggerNow type).countdown_ =
        uniform (fmin m.intervalRange.1 m.intervalRange.2)
          (fmax m.intervalRange.1 m.intervalRange.2) (m.rng_ m.draws_.length) ∧
      (m.triggerNow type).draws_ = m.draws_ ++ [DrawSite.randInRange] ∧
      (m.triggerNow type).current_ = m.current_ ∧
      (m.triggerNow type).timeIn_ = m.timeIn_ ∧
      (m.triggerNow type).challenges_ = m.challenges_ := by
  have hfind : m.challenges_.find? (fun d => d.type == type) = none := by
    rw [List.find?_eq_none]
    intro d hd
    simpa using hno d hd
  simp [triggerNow, hact, endCurrentChallenge, randInRange, hfind]

/-- The amended C1 at the manager `meteorActive` and the category
`LowGravity`. -/
theorem triggerNow_unmatched_active_witness :
    (meteorActive.triggerNow ChallengeType.LowGravity).log_ =
        meteorActive.log_ ++ Call.revert meteorActive.current_ ::
          meteorActive.endListeners_.map (fun cb => Call.ended cb meteorActive.current_) ∧
      (meteorActive.triggerNow ChallengeType.LowGravity).state_ = State.Interval :=
  have h := triggerNow_unmatched_active meteorActive ChallengeType.LowGravity
    (by decide) (by decide)
  ⟨h.1, h.2.1⟩

/-- The entry `List.find?` returns is the first one that passes the test. -/
theorem find_first_split {α : Type} (p : α → Bool) :
    ∀ (l : List α) (e : α), l.find? p = some e →
      ∃ pre post, l = pre ++ e :: post ∧ (∀ d ∈ pre, p d = false) ∧ p e = true
  | [], e, h => by simp at h
  | a :: l, e, h => by
    by_cases ha : p a = true
    · simp [List.find?_cons, ha] at h
      exact ⟨[], l, by simp [h], by simp, h ▸ ha⟩
    · have ha' : p a = false := by simpa using ha
      simp [List.find?_cons, ha'] at h
      obtain ⟨pre, post, hl, hpre, he⟩ := find_first_split p l e h
      refine ⟨a :: pre, post, by simp [hl], ?_, he⟩
      intro d hd
      rcases List.mem_cons.1 hd with rfl | hd
      · exact ha'
      · exact hpre d hd

/-- Whatever passes the test is found when a list has such an entry. -/
theorem find_of_mem {α : Type} (p : α → Bool) (l : List α)
    (h : ∃ d ∈ l, p d = true) : ∃ e, l.find? p = some e := by
  cases hf : l.find? p with
  | some e => exact ⟨e, rfl⟩
  | none =>
    obtain ⟨d, hd, hp⟩ := h
    rw [List.find?_eq_none] at hf
    exact absurd hp (by simpa using hf d hd)

/-- C2: when an event E1 is active and the catalog has an entry of category
`type`, `triggerNow type` calls `env.revert` with E1, every end listener with
E1, `env.apply` with E2' and every start listener with E2', in this order and
nothing else, where E2' is the coerced copy of the first catalog entry of that
category. Afterwards the state is `Active`, the active definition is E2' and
the elapsed time is zero. The only random value consumed is the one of
`randInRange` in the end procedure: the selector draws nothing. -/
theorem triggerNow_matched_active (m : DynamicChallengeManager) (type : ChallengeType)
    (hact : m.state_ = State.Active) (hsome : ∃ d ∈ m.challenges_, d.type = type) :
    ∃ pre e post, m.challenges_ = pre ++ e :: post ∧ (∀ d ∈ pre, d.type ≠ type) ∧
      e.type = type ∧
      (m.triggerNow type).log_ =
        m.log_ ++
          (Call.revert m.current_ :: m.endListeners_.map (fun cb => Call.ended cb m.current_)) ++
          (Call.apply (coerce e) :: m.startListeners_.map (fun cb => Call.started cb (coerce e))) ∧
      (m.triggerNow type).state_ = State.Active ∧
      (m.triggerNow type).current_ = coerce e ∧
      (m.triggerNow type).timeIn_ = 0 ∧
      (m.triggerNow type).draws_ = m.draws_ ++ [DrawSite.randInRange] := by
  obtain ⟨e, he⟩ := find_of_mem (fun d => d.type == type) m.challenges_
    (by obtain ⟨d, hd, ht⟩ := hsome; exact ⟨d, hd, by simpa using ht⟩)
  obtain ⟨pre, post, hl, hpre, hte⟩ := find_first_split _ _ _ he
  refine ⟨pre, e, post, hl, ?_, by simpa using hte, ?_⟩
  · intro d hd
    simpa using hpre d hd
  · simp [triggerNow, hact, endCurrentChallenge, randInRange, he, beginCurrent]

/-- C2 at the manager `meteorActive` and the category `VineOvergrowth`. -/
theorem triggerNow_matched_active_witness :
    ∃ pre e post, meteorActive.challenges_ = pre ++ e :: post ∧
      (∀ d ∈ pre, d.type ≠ ChallengeType.VineOvergrowth) ∧
      e.type = ChallengeType.VineOvergrowth ∧
      (meteorActive.triggerNow ChallengeType.VineOvergrowth).log_ =
        meteorActive.log_ ++
          (Call.revert meteorActive.current_ ::
            meteorActive.endListeners_.map (fun cb => Call.ended cb meteorActive.current_)) ++
          (Call.apply (coerce e) ::
            meteorActive.startListeners_.map (fun cb => Call.started cb (coerce e))) ∧
      (meteorActive.triggerNow ChallengeType.VineOvergrowth).state_ = State.Active ∧
      (meteorActive.triggerNow ChallengeType.VineOvergrowth).current_ = coerce e ∧
      (meteorActive.triggerNow ChallengeType.VineOvergrowth).timeIn_ = 0 ∧
      (meteorActive.triggerNow ChallengeType.VineOvergrowth).draws_ =
        meteorActive.draws_ ++ [DrawSite.randInRange] :=
  triggerNow_matched_active meteorActive ChallengeType.VineOvergrowth (by decide)
    (by decide)

/-! ## Single active event -/

theorem bracket_append (l1 : List Call) :
    ∀ (cur : Option ChallengeDef) (l2 : List Call),
      bracket cur (l1 ++ l2) = (bracket cur l1).bind (fun c => bracket c l2) := by
  induction l1 with
  | nil => intro cur l2; simp [bracket]
  | cons c l1 ih =>
    intro cur l2
    cases c <;> cases cur <;> simp [bracket, ih]
    split <;> simp [ih]

theorem bracket_started (cur : Option ChallengeDef) (d : ChallengeDef) (l : List Nat) :
    bracket cur (l.map (fun cb => Call.started cb d)) = some cur := by
  induction l with
  | nil => simp [bracket]
  | cons a l ih => simpa [bracket] using ih

theorem bracket_ended (cur : Option ChallengeDef) (d : ChallengeDef) (l : List Nat) :
    bracket cur (l.map (fun cb => Call.ended cb d)) = some cur := by
  induction l with
  | nil => simp [bracket]
  | cons a l ih => simpa [bracket] using ih

theorem bracket_ticked (cur : Option ChallengeDef) (d : ChallengeDef) (p : ℚ) (l : List Nat) :
    bracket cur (l.map (fun cb => Call.ticked cb d p)) = some cur := by
  induction l with
  | nil => simp [bracket]
  | cons a l ih => simpa [bracket] using ih

theorem beginCurrent_bracketed (m : DynamicChallengeManager) (h : bracket none m.log_ = some none) :
    Bracketed m.beginCurrent := by
  simp [Bracketed, beginCurrent, active, bracket_append, h, bracket, bracket_started]

theorem endCurrentChallenge_bracketed (m : DynamicChallengeManager)
    (h : bracket none m.log_ = some (some m.current_)) :
    Bracketed m.endCurrentChallenge := by
  simp [Bracketed, endCurrentChallenge, randInRange, active, bracket_append, h, bracket,
    bracket_ended]

theorem startNewChallenge_bracketed (m : DynamicChallengeManager)
    (h : bracket none m.log_ = some none) (hs : m.state_ ≠ State.Active) :
    Bracketed m.startNewChallenge := by
  unfold startNewChallenge
  split
  · simp [Bracketed, active, hs, h]
  · split
    · rename_i d m1 heq
      simp only [pickRandomWeighted, Prod.mk.injEq] at heq
      apply beginCurrent_bracketed
      rw [← heq.2]
      exact h
    · rename_i m1 heq
      simp only [pickRandomWeighted, Prod.mk.injEq] at heq
      rw [← heq.2]
      simp [Bracketed, active, hs, h]

theorem update_bracketed (m : DynamicChallengeManager) (dt : ℚ) (h : Bracketed m) :
    Bracketed (m.update dt) := by
  by_cases hs : m.state_ = State.Active
  · rw [update_active m dt hs]
    have ht : bracket none (m.tickActive dt).log_ = some (some (m.tickActive dt).current_) := by
      have h' : bracket none m.log_ = some (some m.current_) := by
        simpa [Bracketed, active, hs] using h
      simp [tickActive, bracket_append, h', bracket, bracket_ticked]
    split
    · exact endCurrentChallenge_bracketed _ ht
    · simpa [Bracketed, active, tickActive, hs] using ht
  · rw [update_waiting m dt hs]
    have h' : bracket none (m.countDown dt).log_ = some none := by
      simpa [Bracketed, active, hs, countDown] using h
    split
    · exact startNewChallenge_bracketed _ h' hs
    · simpa [Bracketed, active, hs, countDown] using h'

theorem triggerNow_bracketed (m : DynamicChallengeManager) (type : ChallengeType)
    (h : Bracketed m) : Bracketed (m.triggerNow type) := by
  have h1 : Bracketed (if m.state_ = State.Active then m.endCurrentChallenge else m) ∧
      (if m.state_ = State.Active then m.endCurrentChallenge else m).state_ ≠ State.Active := by
    by_cases hs : m.state_ = State.Active
    · simp only [hs, if_true]
      refine ⟨endCurrentChallenge_bracketed _ ?_, by simp [endCurrentChallenge, randInRange]⟩
      simpa [Bracketed, active, hs] using h
    · simp only [hs, if_false]
      exact ⟨h, hs⟩
  unfold triggerNow
  simp only
  generalize (if m.state_ = State.Active then m.endCurrentChallenge else m) = m1 at h1
  obtain ⟨hb, hs⟩ := h1
  split
  · exact hb
  · apply beginCurrent_bracketed
    simpa [Bracketed, active, hs] using hb

theorem step_bracketed (m : DynamicChallengeManager) (op : Op) (hop : op ≠ Op.startSystem)
    (h : Bracketed m) : Bracketed (m.step op) := by
  cases op with
  | update dt => exact update_bracketed m dt h
  | triggerNow type => exact triggerNow_bracketed m type h
  | startSystem => exact absurd rfl hop
  | setChallenges list => exact h
  | onStart cb => exact h
  | onEnd cb => exact h
  | onTick cb => exact h
  | setInitialDelayRange p => exact h
  | setIntervalRange p => exact h

theorem run_bracketed (ops : List Op) :
    ∀ m : DynamicChallengeManager, (∀ op ∈ ops, op ≠ Op.startSystem) → Bracketed m →
      Bracketed (m.run ops) := by
  induction ops with
  | nil => intro m _ h; exact h
  | cons op ops ih =>
    intro m hops h
    exact ih (m.step op) (fun o ho => hops o (List.mem_cons_of_mem _ ho))
      (step_bracketed m op (hops op (List.mem_cons_self _ _)) h)

/-- C3: from a freshly constructed manager, for every generator and every
sequence of public calls without `startSystem` (any catalog set by
`setChallenges`, any listeners, any `update` and `triggerNow` with any `dt`
and category), the log is well bracketed: `env.apply` and `env.revert`
alternate beginning with `env.apply`, and each `env.revert` receives the
definition of the preceding `env.apply`. The definition applied and not yet
reverted is the active copy exactly when the state is `Active`. -/
theorem single_active_event (rng : Nat → Canon) (ops : List Op)
    (hops : ∀ op ∈ ops, op ≠ Op.startSystem) :
    bracket none ((DynamicChallengeManager.new rng).run ops).log_ =
      some ((DynamicChallengeManager.new rng).run ops).active :=
  run_bracketed ops _ hops (by simp [Bracketed, DynamicChallengeManager.new, active, bracket])

/-- C3 at a run that forces two events and lets the second one end. -/
theorem single_active_event_witness :
    bracket none ((DynamicChallengeManager.new halfRng).run
        [Op.setChallenges defaultChallenges, Op.onStart 1, Op.onEnd 2, Op.onTick 3,
          Op.update 0, Op.triggerNow ChallengeType.LowGravity, Op.update 100,
          Op.update 100]).log_ =
      some ((DynamicChallengeManager.new halfRng).run
        [Op.setChallenges defaultChallenges, Op.onStart 1, Op.onEnd 2, Op.onTick 3,
          Op.update 0, Op.triggerNow ChallengeType.LowGravity, Op.update 100,
          Op.update 100]).active :=
  single_active_event halfRng _ (by decide)

/-! ## One transition for each `update` -/

theorem filter_isSwitch_started (d : ChallengeDef) (l : List Nat) :
    (l.map (fun cb => Call.started cb d)).filter Call.isSwitch = [] := by
  simp [List.filter_eq_nil_iff, Call.isSwitch]

theorem filter_isSwitch_ended (d : ChallengeDef) (l : List Nat) :
    (l.map (fun cb => Call.ended cb d)).filter Call.isSwitch = [] := by
  simp [List.filter_eq_nil_iff, Call.isSwitch]

theorem filter_isSwitch_ticked (d : ChallengeDef) (p : ℚ) (l : List Nat) :
    (l.map (fun cb => Call.ticked cb d p)).filter Call.isSwitch = [] := by
  simp [List.filter_eq_nil_iff, Call.isSwitch]

/-- C4: for every manager and every `dt`, one call of `update` makes no
transition, or exactly one of `BootDelay → Active`, `Active → Interval` and
`Interval → Active`. Among the calls it adds to the log there is no
`env.apply` or `env.revert` in the first case, the one `env.apply` of the new
active copy when an event begins, and the one `env.revert` of the active copy
when the event ends; so there is at most one such call, however large `dt`
is. -/
theorem update_one_transition (m : DynamicChallengeManager) (dt : ℚ) :
    ∃ added, (m.update dt).log_ = m.log_ ++ added ∧
      (added.filter Call.isSwitch).length ≤ 1 ∧
      (((m.update dt).state_ = m.state_ ∧ added.filter Call.isSwitch = []) ∨
        (m.state_ = State.BootDelay ∧ (m.update dt).state_ = State.Active ∧
          added.filter Call.isSwitch = [Call.apply (m.update dt).current_]) ∨
        (m.state_ = State.Active ∧ (m.update dt).state_ = State.Interval ∧
          added.filter Call.isSwitch = [Call.revert m.current_]) ∨
        (m.state_ = State.Interval ∧ (m.update dt).state_ = State.Active ∧
          added.filter Call.isSwitch = [Call.apply (m.update dt).current_])) := by
  by_cases hs : m.state_ = State.Active
  · rw [update_active m dt hs]
    split
    · refine ⟨Call.tick dt :: (m.tickListeners_.map (fun cb => Call.ticked cb m.current_
          (fclamp ((fadd m.timeIn_ dt) / fmax (1 / 100) m.current_.duration) 0 1)) ++
          Call.revert m.current_ :: m.endListeners_.map (fun cb => Call.ended cb m.current_)),
        ?_, ?_, ?_⟩
      · simp [endCurrentChallenge, randInRange, tickActive]
      · simp [List.filter_cons, Call.isSwitch, filter_isSwitch_ticked, filter_isSwitch_ended]
      · right; right; left
        refine ⟨hs, by simp [endCurrentChallenge, randInRange], ?_⟩
        simp [List.filter_cons, Call.isSwitch, filter_isSwitch_ticked, filter_isSwitch_ended]
    · refine ⟨Call.tick dt :: m.tickListeners_.map (fun cb => Call.ticked cb m.current_
          (fclamp ((fadd m.timeIn_ dt) / fmax (1 / 100) m.current_.duration) 0 1)), ?_, ?_, ?_⟩
      · simp [tickActive]
      · simp [List.filter_cons, Call.isSwitch, filter_isSwitch_ticked]
      · left
        refine ⟨by simp [tickActive], ?_⟩
        simp [List.filter_cons, Call.isSwitch, filter_isSwitch_ticked]
  · rw [update_waiting m dt hs]
    split
    · rcases startNewChallenge_cases (m.countDown dt) with ⟨_, he⟩ | ⟨_, d, _, _, he⟩
      · rw [he]
        exact ⟨[], by simp [countDown], by simp, Or.inl ⟨by simp [countDown], by simp⟩⟩
      · rw [he]
        refine ⟨Call.apply (coerce d) ::
          m.startListeners_.map (fun cb => Call.started cb (coerce d)), ?_, ?_, ?_⟩
        · simp [beginCurrent, countDown]
        · simp [List.filter_cons, Call.isSwitch, filter_isSwitch_started]
        · have hf : (Call.apply (coerce d) ::
              m.startListeners_.map (fun cb => Call.started cb (coerce d))).filter
              Call.isSwitch = [Call.apply (coerce d)] := by
            simp [List.filter_cons, Call.isSwitch, filter_isSwitch_started]
          cases hst : m.state_ with
          | Active => exact absurd hst hs
          | BootDelay =>
            right; left
            exact ⟨rfl, by simp [beginCurrent], by simpa [beginCurrent] using hf⟩
          | Interval =>
            right; right; right
            exact ⟨rfl, by simp [beginCurrent], by simpa [beginCurrent] using hf⟩
    · exact ⟨[], by simp [countDown], by simp, Or.inl ⟨by simp [countDown], by simp⟩⟩

/-! ## Repeat avoidance -/

theorem pool_eligible (m : DynamicChallengeManager)
    (helig : ∃ d ∈ m.challenges_, m.eligible d = true) :
    ∀ d ∈ m.pool, m.eligible d = true := by
  intro d hd
  unfold pool at hd
  simp only at hd
  split at hd
  · rename_i hempty
    obtain ⟨e, he, hel⟩ := helig
    have : e ∈ m.challenges_.filter m.eligible := List.mem_filter.2 ⟨he, hel⟩
    rw [List.isEmpty_iff.1 hempty] at this
    simp at this
  · exact (List.mem_filter.1 hd).2

/-- C5: when a previous category is recorded and some catalog entry is
eligible (it may repeat, or its category is not the previous one; an entry of
another category is enough), then for every draw `r`, and so for the draw of
every generator, the selector returns a catalog entry, and never one that has
the previous category and may not repeat. -/
theorem repeat_avoidance (m : DynamicChallengeManager) (hprev : m.havePrev_ = true)
    (helig : ∃ d ∈ m.challenges_, d.canRepeatConsecutively = true ∨ d.type ≠ m.prevType_) :
    (∀ r : ℚ, ∃ d, m.pickWith r = some d ∧ d ∈ m.challenges_ ∧
      ¬ (d.type = m.prevType_ ∧ d.canRepeatConsecutively = false)) ∧
    ∃ d, m.pickRandomWeighted.1 = some d ∧ d ∈ m.challenges_ ∧
      ¬ (d.type = m.prevType_ ∧ d.canRepeatConsecutively = false) := by
  obtain ⟨e, he, hel⟩ := helig
  have hne : m.challenges_ ≠ [] := List.ne_nil_of_mem he
  have hpool : ∀ d ∈ m.pool, d ∈ m.challenges_ ∧
      ¬ (d.type = m.prevType_ ∧ d.canRepeatConsecutively = false) := by
    intro d hmem
    have hd' := pool_eligible m ⟨e, he, by
      rcases hel with h | h
      · simp [eligible, h]
      · simp [eligible, h]⟩ d hmem
    refine ⟨pool_subset m d hmem, ?_⟩
    rintro ⟨ht, hc⟩
    simp [eligible, hprev, ht, hc] at hd'
  refine ⟨?_, ?_⟩
  · intro r
    obtain ⟨d, hd, hmem⟩ := pickWith_mem m r hne
    exact ⟨d, hd, hpool d hmem⟩
  · obtain ⟨d, hd, hmem⟩ := pickAt_mem m
      (uniform 0 (total m.weights) (m.rng_ m.draws_.length)) hne
    exact ⟨d, hd, hpool d hmem⟩

/-- C5 at the manager `meteorDone`, where the meteor shower, which may not
repeat, has just completed. -/
theorem repeat_avoidance_witness :
    (∀ r : ℚ, ∃ d, meteorDone.pickWith r = some d ∧ d ∈ meteorDone.challenges_ ∧
      ¬ (d.type = meteorDone.prevType_ ∧ d.canRepeatConsecutively = false)) ∧
    ∃ d, meteorDone.pickRandomWeighted.1 = some d ∧ d ∈ meteorDone.challenges_ ∧
      ¬ (d.type = meteorDone.prevType_ ∧ d.canRepeatConsecutively = false) :=
  repeat_avoidance meteorDone (by decide!) (by decide!)

/-! ## The weighted scan -/

theorem fmax_eq_max (a b : ℚ) : fmax a b = max a b := by
  unfold fmax
  split
  · rename_i h
    exact (max_eq_right (le_of_lt h)).symm
  · rename_i h
    exact (max_eq_left (not_lt.1 h)).symm

/-- The copy `beginCurrent` makes has the floors of the duration and of the
intensity, written with `max`, and the other fields of the original. -/
theorem coerce_eq (d : ChallengeDef) :
    coerce d = { d with duration := max 1 d.duration, intensity := max (1 / 10) d.intensity } := by
  simp [coerce, fmax_eq_max]

/-- What a public call adds to the log; every `env.apply` and every start
listener call in it has the coerced copy of a catalog entry, which is the
active copy after the call. -/
theorem step_added (m : DynamicChallengeManager) (op : Op) :
    ∃ added, (m.step op).log_ = m.log_ ++ added ∧
      ∀ d2, (Call.apply d2 ∈ added ∨ ∃ cb, Call.started cb d2 ∈ added) →
        ∃ d ∈ m.challenges_, d2 = coerce d ∧
          (m.step op).state_ = State.Active ∧ (m.step op).current_ = d2 := by
  have hnil : ∀ m2 : DynamicChallengeManager, m2.log_ = m.log_ →
      ∃ added, m2.log_ = m.log_ ++ added ∧
        ∀ d2, (Call.apply d2 ∈ added ∨ ∃ cb, Call.started cb d2 ∈ added) →
          ∃ d ∈ m.challenges_, d2 = coerce d ∧
            m2.state_ = State.Active ∧ m2.current_ = d2 := by
    intro m2 h
    exact ⟨[], by simp [h], by simp⟩
  have hbegin : ∀ (m1 : DynamicChallengeManager) (pre : List Call) (d : ChallengeDef),
      m1.log_ = m.log_ ++ pre → d ∈ m.challenges_ →
      (∀ d2, ¬ (Call.apply d2 ∈ pre ∨ ∃ cb, Call.started cb d2 ∈ pre)) →
      ∃ added, (beginCurrent { m1 with current_ := d }).log_ = m.log_ ++ added ∧
        ∀ d2, (Call.apply d2 ∈ added ∨ ∃ cb, Call.started cb d2 ∈ added) →
          ∃ e ∈ m.challenges_, d2 = coerce e ∧
            (beginCurrent { m1 with current_ := d }).state_ = State.Active ∧
            (beginCurrent { m1 with current_ := d }).current_ = d2 := by
    intro m1 pre d hlog hd hpre
    refine ⟨pre ++ Call.apply (coerce d) ::
      m1.startListeners_.map (fun cb => Call.started cb (coerce d)), ?_, ?_⟩
    · simp [beginCurrent, hlog]
    · intro d2 h
      have hp := hpre d2
      simp only [not_or, not_exists] at hp
      have hd2 : d2 = coerce d := by
        rcases h with h | ⟨cb, h⟩
        · simp only [List.mem_append, List.mem_cons, Call.apply.injEq, List.mem_map,
            reduceCtorEq, and_false, exists_false, or_false] at h
          rcases h with h | h
          · exact absurd h hp.1
          · exact h
        · simp only [List.mem_append, List.mem_cons, reduceCtorEq, List.mem_map,
            Call.started.injEq, false_or] at h
          rcases h with h | ⟨_, _, _, h⟩
          · exact absurd h (hp.2 cb)
          · exact h.symm
      exact ⟨d, hd, hd2, rfl, hd2.symm⟩
  have hend : ∀ m1 : DynamicChallengeManager, ∀ pre : List Call, m1.log_ = m.log_ ++ pre →
      m1.endCurrentChallenge.log_ = m.log_ ++ (pre ++ Call.revert m1.current_ ::
        m1.endListeners_.map (fun cb => Call.ended cb m1.current_)) := by
    intro m1 pre h
    simp [endCurrentChallenge, randInRange, h]
  cases op with
  | setChallenges list => exact hnil _ rfl
  | onStart cb => exact hnil _ rfl
  | onEnd cb => exact hnil _ rfl
  | onTick cb => exact hnil _ rfl
  | setInitialDelayRange p => exact hnil _ rfl
  | setIntervalRange p => exact hnil _ rfl
  | startSystem => exact hnil _ rfl
  | update dt =>
    show ∃ added, (m.update dt).log_ = m.log_ ++ added ∧
      ∀ d2, (Call.apply d2 ∈ added ∨ ∃ cb, Call.started cb d2 ∈ added) →
        ∃ d ∈ m.challenges_, d2 = coerce d ∧
          (m.update dt).state_ = State.Active ∧ (m.update dt).current_ = d2
    by_cases hs : m.state_ = State.Active
    · rw [update_active m dt hs]
      have ht : (m.tickActive dt).log_ = m.log_ ++ Call.tick dt ::
          m.tickListeners_.map (fun cb => Call.ticked cb m.current_
            (fclamp ((fadd m.timeIn_ dt) / fmax (1 / 100) m.current_.duration) 0 1)) := rfl
      split
      · exact ⟨_, hend _ _ ht, by simp⟩
      · exact ⟨_, ht, by simp⟩
    · rw [update_waiting m dt hs]
      split
      · rcases startNewChallenge_cases (m.countDown dt) with ⟨_, he⟩ | ⟨_, d, hd, _, he⟩
        · rw [he]
          exact hnil _ rfl
        · rw [he]
          have := hbegin { m.countDown dt with
            draws_ := (m.countDown dt).draws_ ++ [DrawSite.pickRandomWeighted] } [] d
            (by simp [countDown]) (pool_subset _ d hd) (by simp)
          exact this
      · exact hnil _ rfl
  | triggerNow type =>
    show ∃ added, (m.triggerNow type).log_ = m.log_ ++ added ∧
      ∀ d2, (Call.apply d2 ∈ added ∨ ∃ cb, Call.started cb d2 ∈ added) →
        ∃ d ∈ m.challenges_, d2 = coerce d ∧
          (m.triggerNow type).state_ = State.Active ∧ (m.triggerNow type).current_ = d2
    have h1 : ∃ pre, (if m.state_ = State.Active then m.endCurrentChallenge else m).log_ =
        m.log_ ++ pre ∧
        (if m.state_ = State.Active then m.endCurrentChallenge else m).challenges_ =
          m.challenges_ ∧
        ∀ d2, ¬ (Call.apply d2 ∈ pre ∨ ∃ cb, Call.started cb d2 ∈ pre) := by
      by_cases hs : m.state_ = State.Active
      · simp only [hs, if_true]
        exact ⟨_, hend m [] (by simp), by simp [endCurrentChallenge, randInRange], by simp⟩
      · simp only [hs, if_false]
        exact ⟨[], by simp, trivial, by simp⟩
    unfold triggerNow
    simp only
    generalize (if m.state_ = State.Active then m.endCurrentChallenge else m) = m1 at h1
    obtain ⟨pre, hlog, hcat, hpre⟩ := h1
    split
    · exact ⟨pre, hlog, fun d2 h => absurd h (hpre d2)⟩
    · rename_i d hfind
      exact hbegin m1 pre d hlog (hcat ▸ List.mem_of_find?_eq_some hfind) hpre

/-- C8: whatever public call is made (an `update` that lets the selector
choose, a `triggerNow`, or any other), every definition that the call passes
to `env.apply` or to a start listener is the active copy after the call, and
it is the copy of a catalog entry `d` with `duration = max(1, d.duration)`,
`intensity = max(0.1, d.intensity)` and the other fields of `d`; so its
duration is at least 1 and its intensity at least 0.1, also when `d` has
duration 0 and intensity 0. -/
theorem activation_coerced (m : DynamicChallengeManager) (op : Op) (added : List Call)
    (d2 : ChallengeDef) (hlog : (m.step op).log_ = m.log_ ++ added)
    (hcall : Call.apply d2 ∈ added ∨ ∃ cb, Call.started cb d2 ∈ added) :
    ∃ d ∈ m.challenges_,
      d2 = { d with duration := max 1 d.duration, intensity := max (1 / 10) d.intensity } ∧
      1 ≤ d2.duration ∧ 1 / 10 ≤ d2.intensity ∧
      (m.step op).state_ = State.Active ∧ (m.step op).current_ = d2 := by
  obtain ⟨added2, hlog2, h⟩ := step_added m op
  have heq : added = added2 := List.append_cancel_left (hlog.symm.trans hlog2)
  subst heq
  obtain ⟨d, hd, rfl, hst, hcur⟩ := h d2 hcall
  refine ⟨d, hd, coerce_eq d, ?_, ?_, hst, hcur⟩
  · rw [coerce_eq]
    exact le_max_left _ _
  · rw [coerce_eq]
    exact le_max_left _ _

/-- C8 at the manager `zeroManager`, whose one catalog entry has duration 0
and intensity 0, and the call `triggerNow(MeteorShower)`. -/
theorem activation_coerced_witness :
    ∃ d ∈ zeroManager.challenges_,
      zeroCoerced =
        { d with duration := max 1 d.duration, intensity := max (1 / 10) d.intensity } ∧
      1 ≤ zeroCoerced.duration ∧ 1 / 10 ≤ zeroCoerced.intensity ∧
      (zeroManager.step (Op.triggerNow ChallengeType.MeteorShower)).state_ = State.Active ∧
      (zeroManager.step (Op.triggerNow ChallengeType.MeteorShower)).current_ = zeroCoerced :=
  activation_coerced zeroManager (Op.triggerNow ChallengeType.MeteorShower)
    [Call.apply zeroCoerced, Call.started 1 zeroCoerced] zeroCoerced (by decide!)
    (Or.inl (List.mem_cons_self _ _))

/-! ## Progress -/

theorem fclamp_nonneg (v : ℚ) : 0 ≤ fclamp v 0 1 := by
  unfold fclamp
  split
  · exact le_refl _
  · split
    · norm_num
    · rename_i h _
      exact not_lt.1 h

theorem fclamp_le_one (v : ℚ) : fclamp v 0 1 ≤ 1 := by
  unfold fclamp
  split
  · norm_num
  · split
    · exact le_refl _
    · rename_i h
      exact not_lt.1 h

theorem fclamp_mono (v w : ℚ) (h : v ≤ w) : fclamp v 0 1 ≤ fclamp w 0 1 := by
  unfold fclamp
  split_ifs <;> linarith

theorem fclamp_of_one_le (v : ℚ) (h : 1 ≤ v) : fclamp v 0 1 = 1 := by
  unfold fclamp
  split_ifs <;> linarith

theorem fmax_pos (d : ℚ) : 0 < fmax (1 / 100) d := by
  rw [fmax_eq_max]
  exact lt_of_lt_of_le (by norm_num) (le_max_left _ _)

theorem progressAt_mono (m : DynamicChallengeManager) (s t : ℚ) (h : s ≤ t) :
    m.progressAt s ≤ m.progressAt t :=
  fclamp_mono _ _ (div_le_div_of_nonneg_right h (le_of_lt (fmax_pos _)))

theorem progressAt_end (m : DynamicChallengeManager) (t : ℚ)
    (hdur : 1 ≤ m.current_.duration) (h : t ≥ m.current_.duration) : m.progressAt t = 1 := by
  apply fclamp_of_one_le
  have hmax : fmax (1 / 100) m.current_.duration = m.current_.duration := by
    rw [fmax_eq_max]
    exact max_eq_right (by linarith)
  rw [hmax, le_div_iff₀ (by linarith)]
  linarith

theorem tickActive_log (m : DynamicChallengeManager) (dt : ℚ) :
    (m.tickActive dt).log_ = m.log_ ++ Call.tick dt ::
      m.tickListeners_.map (fun cb => Call.ticked cb m.current_ (m.progressAt (fadd m.timeIn_ dt))) :=
  rfl

theorem updates_log (dts : List ℚ) :
    ∀ m : DynamicChallengeManager, ∃ added, (m.updates dts).log_ = m.log_ ++ added := by
  induction dts with
  | nil => intro m; exact ⟨[], by simp [updates]⟩
  | cons dt dts ih =>
    intro m
    obtain ⟨a1, h1, _⟩ := step_added m (Op.update dt)
    obtain ⟨a2, h2⟩ := ih (m.update dt)
    refine ⟨a1 ++ a2, ?_⟩
    have h1' : (m.update dt).log_ = m.log_ ++ a1 := h1
    simp only [updates, List.foldl_cons] at h2 ⊢
    rw [h2, h1', List.append_assoc]

theorem untilRevert_ticks_append (dt : ℚ) (d : ChallengeDef) (p : ℚ) (cbs : List Nat)
    (rest : List Call) :
    untilRevert ((Call.tick dt :: cbs.map (fun cb => Call.ticked cb d p)) ++ rest) =
      (Call.tick dt :: cbs.map (fun cb => Call.ticked cb d p)) ++ untilRevert rest := by
  unfold untilRevert
  apply List.takeWhile_append_of_pos
  intro a ha
  simp only [List.mem_cons, List.mem_map] at ha
  rcases ha with rfl | ⟨cb, _, rfl⟩ <;> rfl

theorem untilRevert_revert (d : ChallengeDef) (rest : List Call) :
    untilRevert (Call.revert d :: rest) = [] := by
  simp [untilRevert, Call.isRevert]

theorem progressValues_ticks (dt : ℚ) (d : ChallengeDef) (p : ℚ) (cbs : List Nat) :
    progressValues (Call.tick dt :: cbs.map (fun cb => Call.ticked cb d p)) =
      cbs.map (fun _ => p) := by
  induction cbs with
  | nil => simp [progressValues, Call.reported]
  | cons cb cbs ih =>
    simp only [progressValues, List.filterMap_cons, Call.reported, List.map_cons] at ih ⊢
    rw [ih]

theorem ticks_no_revert (dt : ℚ) (d : ChallengeDef) (p : ℚ) (cbs : List Nat) :
    ∀ c ∈ Call.tick dt :: cbs.map (fun cb => Call.ticked cb d p), c.isRevert = false := by
  intro c hc
  simp only [List.mem_cons, List.mem_map] at hc
  rcases hc with rfl | ⟨cb, _, rfl⟩ <;> rfl

theorem updates_cons (m : DynamicChallengeManager) (dt : ℚ) (dts : List ℚ) :
    m.updates (dt :: dts) = (m.update dt).updates dts := rfl

theorem progress_run (dts : List ℚ) :
    ∀ (m : DynamicChallengeManager) (added : List Call), m.state_ = State.Active →
      1 ≤ m.current_.duration → (∀ dt ∈ dts, 0 ≤ dt) →
      (m.updates dts).log_ = m.log_ ++ added →
      (∀ p ∈ progressValues (untilRevert added),
        m.progressAt (round32 m.timeIn_) ≤ p ∧ p ≤ 1) ∧
      (progressValues (untilRevert added)).Pairwise (fun p q => p ≤ q) ∧
      ((∃ d, Call.revert d ∈ added) →
        ∃ pre dt rest,
          added = pre ++
            (Call.tick dt :: m.tickListeners_.map (fun cb => Call.ticked cb m.current_ 1)) ++
            Call.revert m.current_ :: rest ∧
          ∀ c ∈ pre, c.isRevert = false) := by
  induction dts with
  | nil =>
    intro m added _ _ _ hlog
    have hnil : added = [] := by
      have : m.log_ ++ [] = m.log_ ++ added := by simpa [updates] using hlog
      exact (List.append_cancel_left this).symm
    subst hnil
    simp [untilRevert, progressValues]
  | cons dt dts ih =>
    intro m added hact hdur hdt hlog
    have hdt0 : 0 ≤ dt := hdt dt (List.mem_cons_self _ _)
    have hdts : ∀ x ∈ dts, 0 ≤ x := fun x hx => hdt x (List.mem_cons_of_mem _ hx)
    rw [updates_cons] at hlog
    obtain ⟨a2, h2⟩ := updates_log dts (m.update dt)
    have hp1 : m.progressAt (fadd m.timeIn_ dt) ≤ 1 := fclamp_le_one _
    have hp0 : m.progressAt (round32 m.timeIn_) ≤ m.progressAt (fadd m.timeIn_ dt) :=
      progressAt_mono m _ _ (round32_mono _ _ (by linarith))
    by_cases hend : (m.tickActive dt).timeIn_ ≥ (m.tickActive dt).current_.duration
    · -- the event ends in this call
      have hupd : m.update dt = (m.tickActive dt).endCurrentChallenge := by
        rw [update_active m dt hact, if_pos hend]
      have hone : m.progressAt (fadd m.timeIn_ dt) = 1 := progressAt_end m _ hdur hend
      have hl : (m.update dt).log_ = m.log_ ++
          ((Call.tick dt :: m.tickListeners_.map (fun cb => Call.ticked cb m.current_ 1)) ++
            Call.revert m.current_ :: m.endListeners_.map (fun cb => Call.ended cb m.current_)) := by
        rw [hupd]
        simp [endCurrentChallenge, randInRange, tickActive_log, hone]
        simp [tickActive]
      have hadded : added =
          (Call.tick dt :: m.tickListeners_.map (fun cb => Call.ticked cb m.current_ 1)) ++
            Call.revert m.current_ ::
              (m.endListeners_.map (fun cb => Call.ended cb m.current_) ++ a2) := by
        have hcat : m.log_ ++ added = m.log_ ++
            ((Call.tick dt :: m.tickListeners_.map (fun cb => Call.ticked cb m.current_ 1)) ++
              Call.revert m.current_ ::
                (m.endListeners_.map (fun cb => Call.ended cb m.current_) ++ a2)) := by
          rw [← hlog, h2, hl]
          simp
        exact List.append_cancel_left hcat
      have hseg : untilRevert added =
          (Call.tick dt :: m.tickListeners_.map (fun cb => Call.ticked cb m.current_ 1)) := by
        rw [hadded, untilRevert_ticks_append, untilRevert_revert, List.append_nil]
      rw [hseg, progressValues_ticks]
      refine ⟨?_, ?_, ?_⟩
      · intro p hp
        simp only [List.mem_map] at hp
        obtain ⟨_, _, rfl⟩ := hp
        exact ⟨hone ▸ hp0, le_refl _⟩
      · rw [List.pairwise_map]
        exact List.pairwise_of_forall (fun _ _ => le_refl _)
      · intro _
        exact ⟨[], dt, m.endListeners_.map (fun cb => Call.ended cb m.current_) ++ a2,
          by rw [hadded]; simp, by simp⟩
    · -- the event goes on
      have hupd : m.update dt = m.tickActive dt := by
        rw [update_active m dt hact, if_neg hend]
      have hadded : added =
          (Call.tick dt :: m.tickListeners_.map
            (fun cb => Call.ticked cb m.current_ (m.progressAt (fadd m.timeIn_ dt)))) ++ a2 := by
        have hcat : m.log_ ++ added = m.log_ ++
            ((Call.tick dt :: m.tickListeners_.map
              (fun cb => Call.ticked cb m.current_ (m.progressAt (fadd m.timeIn_ dt)))) ++ a2) := by
          rw [← hlog, h2, hupd, tickActive_log]
          simp
        exact List.append_cancel_left hcat
      rw [hupd] at h2
      obtain ⟨hb, hpw, hrev⟩ := ih (m.tickActive dt) a2 hact hdur hdts h2
      have hseg : untilRevert added =
          (Call.tick dt :: m.tickListeners_.map
            (fun cb => Call.ticked cb m.current_ (m.progressAt (fadd m.timeIn_ dt)))) ++
            untilRevert a2 := by
        rw [hadded, untilRevert_ticks_append]
      have hpv : progressValues (untilRevert added) =
          m.tickListeners_.map (fun _ => m.progressAt (fadd m.timeIn_ dt)) ++
            progressValues (untilRevert a2) := by
        rw [hseg]
        unfold progressValues
        rw [List.filterMap_append]
        exact congrArg (· ++ _) (progressValues_ticks _ _ _ _)
      have hb' : ∀ p ∈ progressValues (untilRevert a2),
          m.progressAt (fadd m.timeIn_ dt) ≤ p ∧ p ≤ 1 := by
        intro p hp
        have := hb p hp
        have hfix : round32 (m.tickActive dt).timeIn_ = fadd m.timeIn_ dt := round32_idem _
        rw [hfix] at this
        exact this
      rw [hpv]
      refine ⟨?_, ?_, ?_⟩
      · intro p hp
        rcases List.mem_append.1 hp with hp | hp
        · simp only [List.mem_map] at hp
          obtain ⟨_, _, rfl⟩ := hp
          exact ⟨hp0, hp1⟩
        · exact ⟨le_trans hp0 (hb' p hp).1, (hb' p hp).2⟩
      · rw [List.pairwise_append]
        refine ⟨?_, hpw, ?_⟩
        · rw [List.pairwise_map]
          exact List.pairwise_of_forall (fun _ _ => le_refl _)
        · intro a ha b hb2
          simp only [List.mem_map] at ha
          obtain ⟨_, _, rfl⟩ := ha
          exact (hb' b hb2).1
      · rintro ⟨d, hd⟩
        have hd2 : Call.revert d ∈ a2 := by
          rw [hadded] at hd
          rcases List.mem_append.1 hd with h | h
          · have := ticks_no_revert _ _ _ _ _ h
            simp [Call.isRevert] at this
          · exact h
        obtain ⟨pre, dt2, rest, ha2, hpre⟩ := hrev ⟨d, hd2⟩
        refine ⟨(Call.tick dt :: m.tickListeners_.map
            (fun cb => Call.ticked cb m.current_ (m.progressAt (fadd m.timeIn_ dt)))) ++ pre,
          dt2, rest, ?_, ?_⟩
        · rw [hadded, ha2]
          simp [tickActive]
        · intro c hc
          rcases List.mem_append.1 hc with h | h
          · exact ticks_no_revert _ _ _ _ _ h
          · exact hpre c h

/-- C9: take an active event whose duration is at least 1, as every coerced
duration is, and any sequence of `update` calls with `dt ≥ 0`. Among the calls
they add to the log, those before the first `env.revert` are the ones made
while the event stays active. The progress values reported to the tick
listeners there lie in `[0, 1]` and never decrease. If the event is ended,
then the end procedure, which starts with `env.revert` of the active copy,
comes directly after the `env.tick` of that same `update` and its tick
listeners, all called with the active copy and progress exactly 1. -/
theorem progress_monotone (m : DynamicChallengeManager) (dts : List ℚ) (added : List Call)
    (hact : m.state_ = State.Active) (hdur : 1 ≤ m.current_.duration)
    (hdt : ∀ dt ∈ dts, 0 ≤ dt) (hlog : (m.updates dts).log_ = m.log_ ++ added) :
    (∀ p ∈ progressValues (untilRevert added), 0 ≤ p ∧ p ≤ 1) ∧
      (progressValues (untilRevert added)).Pairwise (fun p q => p ≤ q) ∧
      ((∃ d, Call.revert d ∈ added) →
        ∃ pre dt rest,
          added = pre ++
            (Call.tick dt :: m.tickListeners_.map (fun cb => Call.ticked cb m.current_ 1)) ++
            Call.revert m.current_ :: rest ∧
          ∀ c ∈ pre, c.isRevert = false) := by
  obtain ⟨hb, hpw, hrev⟩ := progress_run dts m added hact hdur hdt hlog
  exact ⟨fun p hp => ⟨le_trans (fclamp_nonneg _) (hb p hp).1, (hb p hp).2⟩, hpw, hrev⟩

/-- C9 at the manager `meteorActive` and three calls `update(10)`. -/
theorem progress_monotone_witness :
    (∀ p ∈ progressValues (untilRevert meteorRunCalls), 0 ≤ p ∧ p ≤ 1) ∧
      (progressValues (untilRevert meteorRunCalls)).Pairwise (fun p q => p ≤ q) ∧
      ((∃ d, Call.revert d ∈ meteorRunCalls) →
        ∃ pre dt rest,
          meteorRunCalls = pre ++
            (Call.tick dt :: meteorActive.tickListeners_.map
              (fun cb => Call.ticked cb meteorActive.current_ 1)) ++
            Call.revert meteorActive.current_ :: rest ∧
          ∀ c ∈ pre, c.isRevert = false) :=
  progress_monotone meteorActive [10, 10, 10] meteorRunCalls (by decide) (by decide!)
    (by decide!) (by decide!)

/-! ## Empty catalog -/

theorem update_empty_waiting (m : DynamicChallengeManager) (dt : ℚ)
    (hs : m.state_ ≠ State.Active) (hempty : m.challenges_ = []) :
    m.update dt = { m with countdown_ := m.countdown_ - dt } := by
  rw [update_waiting m dt hs]
  split
  · simp [startNewChallenge, countDown, hempty]
  · rfl

/-- C10: in a waiting state (`BootDelay` or `Interval`) with an empty catalog,
any number of `update` calls, with any `dt`, change nothing but the countdown,
from which each `dt` is subtracted: the state stays the same waiting state, no
call is made on the environment or on a listener, and no random value is
drawn. -/
theorem empty_catalog_waits (dts : List ℚ) :
    ∀ m : DynamicChallengeManager, m.state_ ≠ State.Active → m.challenges_ = [] →
      m.updates dts = { m with countdown_ := dts.foldl (fun c dt => c - dt) m.countdown_ } ∧
      (m.updates dts).state_ = m.state_ ∧ (m.updates dts).log_ = m.log_ ∧
      (m.updates dts).draws_ = m.draws_ := by
  induction dts with
  | nil => intro m _ _; exact ⟨rfl, rfl, rfl, rfl⟩
  | cons dt dts ih =>
    intro m hs hempty
    rw [updates_cons, update_empty_waiting m dt hs hempty]
    obtain ⟨h1, h2, h3, h4⟩ := ih { m with countdown_ := m.countdown_ - dt } hs hempty
    exact ⟨by rw [h1]; rfl, h2, h3, h4⟩

/-- C10 at a freshly constructed manager, which waits in `BootDelay` with an
empty catalog, and three `update` calls. -/
theorem empty_catalog_waits_witness :
    (DynamicChallengeManager.new halfRng).updates [1, 2, 3] =
        { DynamicChallengeManager.new halfRng with
          countdown_ := ([1, 2, 3] : List ℚ).foldl (fun c dt => c - dt)
            (DynamicChallengeManager.new halfRng).countdown_ } ∧
      ((DynamicChallengeManager.new halfRng).updates [1, 2, 3]).state_ =
        (DynamicChallengeManager.new halfRng).state_ ∧
      ((DynamicChallengeManager.new halfRng).updates [1, 2, 3]).log_ =
        (DynamicChallengeManager.new halfRng).log_ ∧
      ((DynamicChallengeManager.new halfRng).updates [1, 2, 3]).draws_ =
        (DynamicChallengeManager.new halfRng).draws_ :=
  empty_catalog_waits [1, 2, 3] (DynamicChallengeManager.new halfRng) (by decide) rfl

end Groot

namespace Groot

open DynamicChallengeManager

/-! ## The calls of each public operation -/

theorem callsOf_eq (m : DynamicChallengeManager) (op : Op) (a : List Call)
    (h : (m.step op).log_ = m.log_ ++ a) : m.callsOf op = a := by
  simp [callsOf, h]

theorem step_log (m : DynamicChallengeManager) (op : Op) :
    (m.step op).log_ = m.log_ ++ m.callsOf op := by
  obtain ⟨a, h, _⟩ := step_added m op
  rw [callsOf_eq m op a h, h]

/-- The calls of `update` in the state `Active`. -/
theorem callsOf_update_active (m : DynamicChallengeManager) (dt : ℚ)
    (hs : m.state_ = State.Active) :
    m.callsOf (Op.update dt) =
      Call.tick dt ::
        m.tickListeners_.map (fun cb => Call.ticked cb m.current_ (m.progressAt (fadd m.timeIn_ dt))) ++
        (if fadd m.timeIn_ dt ≥ m.current_.duration then
          Call.revert m.current_ :: m.endListeners_.map (fun cb => Call.ended cb m.current_)
        else []) := by
  apply callsOf_eq
  show (m.update dt).log_ = _
  rw [update_active m dt hs]
  have hc : (m.tickActive dt).timeIn_ = fadd m.timeIn_ dt ∧
      (m.tickActive dt).current_ = m.current_ := ⟨rfl, rfl⟩
  rw [hc.1, hc.2]
  split
  · simp [endCurrentChallenge, randInRange, tickActive_log]
    simp [tickActive]
  · simp [tickActive_log]

/-- The calls of `update` in the states `BootDelay` and `Interval`. -/
theorem callsOf_update_waiting (m : DynamicChallengeManager) (dt : ℚ)
    (hs : m.state_ ≠ State.Active) :
    m.callsOf (Op.update dt) =
      if m.countdown_ - dt ≤ 0 ∧ m.challenges_ ≠ [] then
        Call.apply (m.update dt).current_ ::
          m.startListeners_.map (fun cb => Call.started cb (m.update dt).current_)
      else [] := by
  apply callsOf_eq
  show (m.update dt).log_ = _
  rw [update_waiting m dt hs]
  have hcd : (m.countDown dt).countdown_ = m.countdown_ - dt := rfl
  rw [hcd]
  by_cases hc : m.countdown_ - dt ≤ 0
  · rw [if_pos hc]
    rcases startNewChallenge_cases (m.countDown dt) with ⟨he, hm⟩ | ⟨hne, d, _, _, hm⟩
    · have he' : m.challenges_ = [] := he
      rw [hm]
      simp [he', countDown]
    · have hne' : m.challenges_ ≠ [] := hne
      rw [hm]
      simp [hc, hne', beginCurrent, countDown]
  · rw [if_neg hc]
    simp [hc, countDown]

/-- The calls of `triggerNow`. -/
theorem callsOf_triggerNow (m : DynamicChallengeManager) (type : ChallengeType) :
    m.callsOf (Op.triggerNow type) =
      (if m.state_ = State.Active then
        Call.revert m.current_ :: m.endListeners_.map (fun cb => Call.ended cb m.current_)
      else []) ++
      (match m.challenges_.find? (fun d => d.type == type) with
        | some e =>
          Call.apply (coerce e) :: m.startListeners_.map (fun cb => Call.started cb (coerce e))
        | none => []) := by
  apply callsOf_eq
  show (m.triggerNow type).log_ = _
  by_cases hs : m.state_ = State.Active
  · cases hf : m.challenges_.find? (fun d => d.type == type) with
    | none => simp [triggerNow, hs, hf, endCurrentChallenge, randInRange]
    | some e => simp [triggerNow, hs, hf, endCurrentChallenge, randInRange, beginCurrent]
  · cases hf : m.challenges_.find? (fun d => d.type == type) with
    | none => simp [triggerNow, hs, hf]
    | some e => simp [triggerNow, hs, hf, beginCurrent]

/-- The other public operations call neither the environment nor a listener. -/
theorem callsOf_quiet (m : DynamicChallengeManager) (op : Op)
    (h : (∀ dt, op ≠ Op.update dt) ∧ (∀ type, op ≠ Op.triggerNow type)) :
    m.callsOf op = [] := by
  apply callsOf_eq
  cases op with
  | update dt => exact absurd rfl (h.1 dt)
  | triggerNow type => exact absurd rfl (h.2 type)
  | setChallenges list => simp [step, setChallenges]
  | onStart cb => simp [step, onStart]
  | onEnd cb => simp [step, onEnd]
  | onTick cb => simp [step, onTick]
  | startSystem => simp [step, startSystem, randInRange]
  | setInitialDelayRange p => simp [step]
  | setIntervalRange p => simp [step]

/-! ## `triggerNow` outside an event -/

/-- C11: in the states `BootDelay` and `Interval`, `triggerNow` with a
category that no catalog entry has returns the manager as it was: state,
countdown, elapsed time, active copy and previous category are unchanged, no
call is made on the environment or on a listener, and no random value is
drawn. -/
theorem triggerNow_unmatched_waiting (m : DynamicChallengeManager) (type : ChallengeType)
    (hs : m.state_ ≠ State.Active) (hno : ∀ d ∈ m.challenges_, d.type ≠ type) :
    m.triggerNow type = m ∧ m.callsOf (Op.triggerNow type) = [] ∧
      (m.triggerNow type).state_ = m.state_ ∧
      (m.triggerNow type).countdown_ = m.countdown_ ∧
      (m.triggerNow type).timeIn_ = m.timeIn_ ∧
      (m.triggerNow type).current_ = m.current_ ∧
      (m.triggerNow type).havePrev_ = m.havePrev_ ∧
      (m.triggerNow type).prevType_ = m.prevType_ ∧
      (m.triggerNow type).log_ = m.log_ ∧
      (m.triggerNow type).draws_ = m.draws_ := by
  have hfind : m.challenges_.find? (fun d => d.type == type) = none := by
    rw [List.find?_eq_none]
    intro d hd
    simpa using hno d hd
  have heq : m.triggerNow type = m := by simp [triggerNow, hs, hfind]
  refine ⟨heq, ?_, ?_⟩
  · rw [callsOf_triggerNow, hfind]
    simp [hs]
  · rw [heq]
    exact ⟨rfl, rfl, rfl, rfl, rfl, rfl, rfl, rfl⟩

/-- C11 at the manager `twoKinds`, which waits in `BootDelay`, and the
category `LowGravity`, which its catalog does not have. -/
theorem triggerNow_unmatched_waiting_witness :
    twoKinds.triggerNow ChallengeType.LowGravity = twoKinds ∧
      twoKinds.callsOf (Op.triggerNow ChallengeType.LowGravity) = [] :=
  have h := triggerNow_unmatched_waiting twoKinds ChallengeType.LowGravity
    (by decide) (by decide)
  ⟨h.1, h.2.1⟩

/-! ## The environment tick -/

theorem envTicks_ticked (d : ChallengeDef) (p : ℚ) (l : List Nat) :
    envTicks (l.map (fun cb => Call.ticked cb d p)) = [] := by
  induction l with
  | nil => rfl
  | cons a l _ => simp [envTicks, Call.tickArg]

theorem envTicks_ended (d : ChallengeDef) (l : List Nat) :
    envTicks (l.map (fun cb => Call.ended cb d)) = [] := by
  induction l with
  | nil => rfl
  | cons a l _ => simp [envTicks, Call.tickArg]

theorem envTicks_started (d : ChallengeDef) (l : List Nat) :
    envTicks (l.map (fun cb => Call.started cb d)) = [] := by
  induction l with
  | nil => rfl
  | cons a l _ => simp [envTicks, Call.tickArg]

theorem envTicks_append (a b : List Call) : envTicks (a ++ b) = envTicks a ++ envTicks b := by
  simp [envTicks]

theorem envTicks_cons (c : Call) (l : List Call) :
    envTicks (c :: l) = (match c.tickArg with | some dt => [dt] | none => []) ++ envTicks l := by
  cases c <;> simp [envTicks, Call.tickArg]

/-- C12: among the calls of a public call, the `env.tick` calls are exactly
one `env.tick(dt)` for an `update(dt)` entered in the state `Active`, and none
for an `update` entered in `BootDelay` or `Interval` (also when it begins an
event) and for every other public call. A tick listener is called only by an
`update` entered in `Active`, and only after the `env.tick(dt)` that heads the
calls of that `update`. -/
theorem env_tick_once (m : DynamicChallengeManager) (op : Op) :
    envTicks (m.callsOf op) =
        (match op with
          | Op.update dt => if m.state_ = State.Active then [dt] else []
          | _ => []) ∧
      ∀ pre cb d p post, m.callsOf op = pre ++ Call.ticked cb d p :: post →
        ∃ dt, op = Op.update dt ∧ m.state_ = State.Active ∧
          pre.head? = some (Call.tick dt) := by
  have hquiet : ∀ o : Op, (∀ dt, o ≠ Op.update dt) ∧ (∀ type, o ≠ Op.triggerNow type) →
      envTicks (m.callsOf o) = [] ∧
      ∀ pre cb d p post, m.callsOf o = pre ++ Call.ticked cb d p :: post →
        ∃ dt, o = Op.update dt ∧ m.state_ = State.Active ∧
          pre.head? = some (Call.tick dt) := by
    intro o ho
    rw [callsOf_quiet m o ho]
    exact ⟨rfl, by intro pre cb d p post h; simp at h⟩
  cases op with
  | setChallenges list => exact hquiet _ ⟨by simp, by simp⟩
  | onStart cb => exact hquiet _ ⟨by simp, by simp⟩
  | onEnd cb => exact hquiet _ ⟨by simp, by simp⟩
  | onTick cb => exact hquiet _ ⟨by simp, by simp⟩
  | startSystem => exact hquiet _ ⟨by simp, by simp⟩
  | setInitialDelayRange p => exact hquiet _ ⟨by simp, by simp⟩
  | setIntervalRange p => exact hquiet _ ⟨by simp, by simp⟩
  | triggerNow type =>
    rw [callsOf_triggerNow]
    constructor
    · rw [envTicks_append]
      have h1 : envTicks (if m.state_ = State.Active then
          Call.revert m.current_ :: m.endListeners_.map (fun cb => Call.ended cb m.current_)
          else []) = [] := by
        split
        · simp [envTicks_cons, Call.tickArg, envTicks_ended]
        · rfl
      rw [h1]
      split
      · simp [envTicks_cons, Call.tickArg, envTicks_started]
      · rfl
    · intro pre cb d p post h
      have hmem : Call.ticked cb d p ∈ pre ++ Call.ticked cb d p :: post := by simp
      rw [← h] at hmem
      exfalso
      rcases List.mem_append.1 hmem with hm | hm
      · split at hm
        · simp at hm
        · simp at hm
      · split at hm
        · simp at hm
        · simp at hm
  | update dt =>
    by_cases hs : m.state_ = State.Active
    · rw [callsOf_update_active m dt hs]
      constructor
      · simp only [hs, if_true]
        rw [List.cons_append, envTicks_cons, envTicks_append, envTicks_ticked]
        have h2 : envTicks (if fadd m.timeIn_ dt ≥ m.current_.duration then
            Call.revert m.current_ :: m.endListeners_.map (fun cb => Call.ended cb m.current_)
            else []) = [] := by
          split
          · simp [envTicks_cons, Call.tickArg, envTicks_ended]
          · rfl
        rw [h2]
        rfl
      · intro pre cb d p post h
        refine ⟨dt, rfl, hs, ?_⟩
        cases pre with
        | nil => simp at h
        | cons c pre =>
          simp only [List.cons_append, List.cons.injEq] at h
          simp [h.1]
    · rw [callsOf_update_waiting m dt hs]
      constructor
      · simp only [hs, if_false]
        split
        · simp [envTicks_cons, Call.tickArg, envTicks_started]
        · rfl
      · intro pre cb d p post h
        have hmem : Call.ticked cb d p ∈ pre ++ Call.ticked cb d p :: post := by simp
        rw [← h] at hmem
        exfalso
        split at hmem
        · simp at hmem
        · simp at hmem

/-! ## Range normalisation -/

theorem fmin_eq_min (a b : ℚ) : fmin a b = min a b := by
  unfold fmin
  split
  · rename_i h
    exact (min_eq_right (le_of_lt h)).symm
  · rename_i h
    exact (min_eq_left (not_lt.1 h)).symm

theorem uniform_swap (a b : ℚ) (u : Canon) :
    uniform (fmin b a) (fmax b a) u = uniform (fmin a b) (fmax a b) u := by
  rw [fmin_eq_min, fmax_eq_max, fmin_eq_min, fmax_eq_max, min_comm, max_comm]

/-- The draw of a range whose width overflows: `+inf`, or a NaN when the
canonical value is zero. -/
theorem uniform_overflow (lo hi : ℚ) (u : Canon) (h : overflow32 ≤ hi - lo) :
    uniform lo hi u = if u.val = 0 then F32.nan else F32.inf := by
  unfold uniform F32.ofRat
  rw [if_pos h]
  by_cases hu : u.val = 0
  · simp [F32.scale, F32.add, hu]
  · simp [F32.scale, F32.add, hu]

theorem isFloat_min (a b : ℚ) (ha : isFloat a) (hb : isFloat b) : isFloat (min a b) := by
  rcases min_choice a b with h | h
  · rw [h]; exact ha
  · rw [h]; exact hb

theorem isFloat_max (a b : ℚ) (ha : isFloat a) (hb : isFloat b) : isFloat (max a b) := by
  rcases max_choice a b with h | h
  · rw [h]; exact ha
  · rw [h]; exact hb

theorem startSystem_countdown (m : DynamicChallengeManager) (p : ℚ × ℚ) :
    (m.step (Op.setInitialDelayRange p)).startSystem.countdown_ =
      uniform (min p.1 p.2) (max p.1 p.2) (m.rng_ m.draws_.length) := by
  rw [← fmin_eq_min, ← fmax_eq_max]
  rfl

theorem endCurrentChallenge_countdown (m : DynamicChallengeManager) (p : ℚ × ℚ) :
    (m.step (Op.setIntervalRange p)).endCurrentChallenge.countdown_ =
      uniform (min p.1 p.2) (max p.1 p.2) (m.rng_ m.draws_.length) := by
  rw [← fmin_eq_min, ← fmax_eq_max]
  rfl

/-- C13, as stated, fails: with `initialDelayRange = {-3e38f, 3e38f}`, whose
ends are finite `float` values, the width `max - min` that the distribution
computes is beyond the binary32 range, so it is `+inf`, and the countdown that
`startSystem` draws is `+inf`, not a value between the two ends. -/
theorem wide_range_countdown_infinite :
    (wideRange.initialDelayRange =
        (-300000000549775575777803994281145270272, 300000000549775575777803994281145270272) ∧
      isFloat (-300000000549775575777803994281145270272) ∧
      isFloat 300000000549775575777803994281145270272 ∧
      wideRange.startSystem.countdown_ = F32.inf) ∧
    ¬ ∀ (m : DynamicChallengeManager) (a b : ℚ), isFloat a → isFloat b →
        ∃ x, (m.step (Op.setInitialDelayRange (a, b))).startSystem.countdown_ = F32.fin x ∧
          min a b ≤ x ∧ x ≤ max a b := by
  have hcd : wideRange.startSystem.countdown_ = F32.inf := by decide!
  have ha : isFloat (-300000000549775575777803994281145270272) := by
    refine ⟨by decide!, ?_⟩
    unfold fltMax
    rw [abs_of_neg (by norm_num)]
    norm_num
  have hb : isFloat 300000000549775575777803994281145270272 := by
    refine ⟨by decide!, ?_⟩
    unfold fltMax
    rw [abs_of_pos (by norm_num)]
    norm_num
  refine ⟨⟨rfl, ha, hb, hcd⟩, ?_⟩
  intro h
  obtain ⟨x, hx, _⟩ := h (DynamicChallengeManager.new halfRng) _ _ ha hb
  have hx' : wideRange.startSystem.countdown_ = F32.fin x := hx
  rw [hcd] at hx'
  exact F32.noConfusion hx'

/-- C13, amended: the two ends `a` and `b` of the range being finite `float`
values, the countdown that `startSystem` draws for the range `(a, b)` set in
`initialDelayRange`, and the one that the end procedure draws for `(a, b)` set
in `intervalRange`, are the same as for `(b, a)` with the same generator. When
the width `max a b - min a b` does not overflow and the canonical value of the
generator is below 1, so at most `1 - 2^(-24)`, the countdown is finite and
lies between `min a b` and `max a b` inclusive. When the width overflows, the
countdown is `+inf`, or a NaN for the canonical value 0. -/
theorem range_normalised (m : DynamicChallengeManager) (a b : ℚ)
    (ha : isFloat a) (hb : isFloat b) :
    ((m.step (Op.setInitialDelayRange (b, a))).startSystem.countdown_ =
        (m.step (Op.setInitialDelayRange (a, b))).startSystem.countdown_ ∧
      (m.step (Op.setIntervalRange (b, a))).endCurrentChallenge.countdown_ =
        (m.step (Op.setIntervalRange (a, b))).endCurrentChallenge.countdown_) ∧
    (max a b - min a b < overflow32 → (m.rng_ m.draws_.length).val ≤ 16777215 / 16777216 →
      (∃ x, (m.step (Op.setInitialDelayRange (a, b))).startSystem.countdown_ = F32.fin x ∧
        min a b ≤ x ∧ x ≤ max a b) ∧
      (∃ x, (m.step (Op.setIntervalRange (a, b))).endCurrentChallenge.countdown_ = F32.fin x ∧
        min a b ≤ x ∧ x ≤ max a b)) ∧
    (overflow32 ≤ max a b - min a b →
      (m.step (Op.setInitialDelayRange (a, b))).startSystem.countdown_ =
        (if (m.rng_ m.draws_.length).val = 0 then F32.nan else F32.inf) ∧
      (m.step (Op.setIntervalRange (a, b))).endCurrentChallenge.countdown_ =
        (if (m.rng_ m.draws_.length).val = 0 then F32.nan else F32.inf)) := by
  rw [startSystem_countdown, startSystem_countdown, endCurrentChallenge_countdown,
    endCurrentChallenge_countdown]
  refine ⟨⟨?_, ?_⟩, ?_, ?_⟩
  · show uniform (min b a) (max b a) _ = uniform (min a b) (max a b) _
    rw [min_comm, max_comm]
  · show uniform (min b a) (max b a) _ = uniform (min a b) (max a b) _
    rw [min_comm, max_comm]
  · intro hw hu
    have := uniform_mem (min a b) (max a b) (m.rng_ m.draws_.length) (isFloat_min a b ha hb)
      (isFloat_max a b ha hb) min_le_max hw hu
    exact ⟨this, this⟩
  · intro hw
    have := uniform_overflow (min a b) (max a b) (m.rng_ m.draws_.length) hw
    exact ⟨this, this⟩

/-- C13, amended, at a freshly constructed manager and the range `(6, 3)`,
given in the wrong order: the countdown lies between 3 and 6. -/
theorem range_normalised_witness :
    (∃ x, ((DynamicChallengeManager.new halfRng).step
        (Op.setInitialDelayRange (6, 3))).startSystem.countdown_ = F32.fin x ∧
      (3 : ℚ) ≤ x ∧ x ≤ 6) ∧
    ((DynamicChallengeManager.new halfRng).step
        (Op.setInitialDelayRange (3, 6))).startSystem.countdown_ =
      ((DynamicChallengeManager.new halfRng).step
        (Op.setInitialDelayRange (6, 3))).startSystem.countdown_ := by
  have ha : isFloat 6 := by
    refine ⟨by decide!, ?_⟩
    unfold fltMax
    rw [abs_of_pos (by norm_num)]
    norm_num
  have hb : isFloat 3 := by
    refine ⟨by decide!, ?_⟩
    unfold fltMax
    rw [abs_of_pos (by norm_num)]
    norm_num
  have h := range_normalised (DynamicChallengeManager.new halfRng) 6 3 ha hb
  have hmin : min (6 : ℚ) 3 = 3 := by norm_num
  have hmax : max (6 : ℚ) 3 = 6 := by norm_num
  rw [hmin, hmax] at h
  have hw : (6 : ℚ) - 3 < overflow32 := by
    unfold overflow32
    norm_num
  have hu : ((DynamicChallengeManager.new halfRng).rng_
      (DynamicChallengeManager.new halfRng).draws_.length).val ≤ 16777215 / 16777216 := by
    decide!
  exact ⟨(h.2.1 hw hu).1, h.1.1⟩

/-! ## Notification order -/

theorem onTick_all (cbs : List Nat) :
    ∀ m : DynamicChallengeManager,
      (cbs.foldl onTick m).tickListeners_ = m.tickListeners_ ++ cbs := by
  induction cbs with
  | nil => intro m; simp
  | cons cb cbs ih => intro m; simp [ih, onTick]

theorem onStart_all (cbs : List Nat) :
    ∀ m : DynamicChallengeManager,
      (cbs.foldl onStart m).startListeners_ = m.startListeners_ ++ cbs := by
  induction cbs with
  | nil => intro m; simp
  | cons cb cbs ih => intro m; simp [ih, onStart]

theorem onEnd_all (cbs : List Nat) :
    ∀ m : DynamicChallengeManager,
      (cbs.foldl onEnd m).endListeners_ = m.endListeners_ ++ cbs := by
  induction cbs with
  | nil => intro m; simp
  | cons cb cbs ih => intro m; simp [ih, onEnd]

/-- C14: `onStart`, `onEnd` and `onTick` append the listener to the end of its
own list and change nothing else, so a list holds its listeners in
registration order. The begin procedure calls `env.apply` and then every start
listener once, in registration order, with the coerced copy; the end procedure
calls `env.revert` and then every end listener once, in registration order,
with the active copy. The calls of an `update` entered in `Active` are
`env.tick`, then every tick listener once, in registration order, with the
active copy and the progress of this call, then the end procedure when the
event is over; an `update` entered in another state calls no tick listener. -/
theorem notification_order (m : DynamicChallengeManager) (cb : Nat) (cbs : List Nat) (dt : ℚ) :
    (m.onStart cb = { m with startListeners_ := m.startListeners_ ++ [cb] } ∧
      m.onEnd cb = { m with endListeners_ := m.endListeners_ ++ [cb] } ∧
      m.onTick cb = { m with tickListeners_ := m.tickListeners_ ++ [cb] }) ∧
    ((cbs.foldl onStart m).startListeners_ = m.startListeners_ ++ cbs ∧
      (cbs.foldl onEnd m).endListeners_ = m.endListeners_ ++ cbs ∧
      (cbs.foldl onTick m).tickListeners_ = m.tickListeners_ ++ cbs) ∧
    m.beginCurrent.log_ =
      m.log_ ++ Call.apply (coerce m.current_) ::
        m.startListeners_.map (fun c => Call.started c (coerce m.current_)) ∧
    m.endCurrentChallenge.log_ =
      m.log_ ++ Call.revert m.current_ ::
        m.endListeners_.map (fun c => Call.ended c m.current_) ∧
    m.callsOf (Op.update dt) =
      (if m.state_ = State.Active then
        Call.tick dt ::
          m.tickListeners_.map
            (fun c => Call.ticked c m.current_ (m.progressAt (fadd m.timeIn_ dt))) ++
          (if fadd m.timeIn_ dt ≥ m.current_.duration then
            Call.revert m.current_ :: m.endListeners_.map (fun c => Call.ended c m.current_)
          else [])
      else if m.countdown_ - dt ≤ 0 ∧ m.challenges_ ≠ [] then
        Call.apply (m.update dt).current_ ::
          m.startListeners_.map (fun c => Call.started c (m.update dt).current_)
      else []) := by
  refine ⟨⟨rfl, rfl, rfl⟩, ⟨onStart_all cbs m, onEnd_all cbs m, onTick_all cbs m⟩, rfl, ?_, ?_⟩
  · simp [endCurrentChallenge, randInRange]
  · by_cases hs : m.state_ = State.Active
    · rw [if_pos hs, callsOf_update_active m dt hs]
    · rw [if_neg hs, callsOf_update_waiting m dt hs]

/-! ## `startSystem` during an event -/

/-- C15 fails on the code at `startSystem`: in `demoMeteor` the meteor shower
is active; `startSystem()` leaves the state `Active` for `BootDelay` without
any call on the environment or on a listener, and the next `update(100)`
begins the vine overgrowth. The log then holds two `env.apply` and no
`env.revert`, and no end listener was called. -/
theorem startSystem_drops_active_event :
    demoMeteor.state_ = State.Active ∧ demoMeteor.current_.id = "meteor" ∧
      demoMeteor.startSystem.state_ = State.BootDelay ∧
      demoMeteor.callsOf Op.startSystem = [] ∧
      demoRestarted.state_ = State.Active ∧ demoRestarted.current_.id = "vines" ∧
      demoRestarted.log_ =
        [Call.apply demoMeteor.current_, Call.started 1 demoMeteor.current_,
          Call.apply demoRestarted.current_, Call.started 1 demoRestarted.current_] ∧
      bracket none demoRestarted.log_ = none := by
  refine ⟨by decide, by decide!, by decide, ?_, by decide!, by decide!, by decide!, by decide!⟩
  exact callsOf_quiet _ _ ⟨by simp, by simp⟩

/-! ## The end of an event -/

/-- C16, as stated, fails: in `meteorNearEnd` the meteor shower, which lasts
25 seconds, is active with the elapsed time 24.999998092651367, a binary32
number. For `dt = 1.5e-6f` the exact sum `t + dt` is below 25, but the `float`
sum that line 173 stores is 25, and `update(dt)` runs the end procedure. -/
theorem end_before_exact_sum :
    (meteorNearEnd.state_ = State.Active ∧ meteorNearEnd.timeIn_ = 13107199 / 524288 ∧
      meteorNearEnd.current_.duration = 25 ∧
      meteorNearEnd.timeIn_ + 3298535 / 2199023255552 < meteorNearEnd.current_.duration ∧
      fadd meteorNearEnd.timeIn_ (3298535 / 2199023255552) = 25 ∧
      Call.revert meteorNearEnd.current_ ∈
        meteorNearEnd.callsOf (Op.update (3298535 / 2199023255552)) ∧
      (meteorNearEnd.update (3298535 / 2199023255552)).state_ = State.Interval) ∧
    ¬ ∀ (m : DynamicChallengeManager) (dt : ℚ), m.state_ = State.Active →
        ((∃ d, Call.revert d ∈ m.callsOf (Op.update dt)) ↔
          m.timeIn_ + dt ≥ m.current_.duration) := by
  have hact : meteorNearEnd.state_ = State.Active := by decide!
  have ht : meteorNearEnd.timeIn_ = 13107199 / 524288 := by decide!
  have hdur : meteorNearEnd.current_.duration = 25 := by decide!
  have hlt : meteorNearEnd.timeIn_ + 3298535 / 2199023255552 <
      meteorNearEnd.current_.duration := by
    rw [ht, hdur]
    norm_num
  have hsum : fadd meteorNearEnd.timeIn_ (3298535 / 2199023255552) = 25 := by decide!
  have hge : fadd meteorNearEnd.timeIn_ (3298535 / 2199023255552) ≥
      meteorNearEnd.current_.duration := by
    rw [hsum, hdur]
  have hmem : Call.revert meteorNearEnd.current_ ∈
      meteorNearEnd.callsOf (Op.update (3298535 / 2199023255552)) := by
    rw [callsOf_update_active _ _ hact, if_pos hge]
    simp
  have hst : (meteorNearEnd.update (3298535 / 2199023255552)).state_ = State.Interval := by
    rw [update_active _ _ hact]
    have hc : (meteorNearEnd.tickActive (3298535 / 2199023255552)).timeIn_ ≥
        (meteorNearEnd.tickActive (3298535 / 2199023255552)).current_.duration := hge
    rw [if_pos hc]
    rfl
  refine ⟨⟨hact, ht, hdur, hlt, hsum, hmem, hst⟩, ?_⟩
  intro h
  have := (h meteorNearEnd _ hact).1 ⟨_, hmem⟩
  exact absurd this (not_le.2 hlt)

/-- C16, amended: for an `update(dt)` entered in `Active` with elapsed time
`t`, the new elapsed time is the `float` sum of `t` and `dt` that line 173
stores, the binary32 number nearest to `t + dt`, and the end procedure runs in
this call exactly when this sum is at least the duration of the active copy.
When it runs, the calls are `env.tick`, the tick listeners, `env.revert` of
the active copy and the end listeners; then the category of the active copy is
recorded, the state is `Interval` and the countdown is one draw from
`intervalRange`. Otherwise, the sum not being below the binary32 range, the
state stays `Active` with the same active copy and the `float` sum as elapsed
time, and nothing else changes but the log. -/
theorem end_transition (m : DynamicChallengeManager) (dt : ℚ) (hact : m.state_ = State.Active) :
    ((∃ d, Call.revert d ∈ m.callsOf (Op.update dt)) ↔
        fadd m.timeIn_ dt ≥ m.current_.duration) ∧
      (fadd m.timeIn_ dt ≥ m.current_.duration →
        m.callsOf (Op.update dt) =
          Call.tick dt ::
            m.tickListeners_.map
              (fun c => Call.ticked c m.current_ (m.progressAt (fadd m.timeIn_ dt))) ++
            Call.revert m.current_ :: m.endListeners_.map (fun c => Call.ended c m.current_) ∧
        (m.update dt).havePrev_ = true ∧ (m.update dt).prevType_ = m.current_.type ∧
        (m.update dt).state_ = State.Interval ∧
        (m.update dt).countdown_ =
          uniform (fmin m.intervalRange.1 m.intervalRange.2)
            (fmax m.intervalRange.1 m.intervalRange.2) (m.rng_ m.draws_.length) ∧
        (m.update dt).draws_ = m.draws_ ++ [DrawSite.randInRange] ∧
        (m.update dt).current_ = m.current_) ∧
      (¬ fadd m.timeIn_ dt ≥ m.current_.duration → -overflow32 < m.timeIn_ + dt →
        m.update dt =
          { m with
            timeIn_ := fadd m.timeIn_ dt
            log_ := m.log_ ++ Call.tick dt ::
              m.tickListeners_.map
                (fun c => Call.ticked c m.current_ (m.progressAt (fadd m.timeIn_ dt))) } ∧
        (m.update dt).state_ = State.Active ∧ (m.update dt).current_ = m.current_ ∧
        (m.update dt).timeIn_ = fadd m.timeIn_ dt) := by
  have hc : (m.tickActive dt).timeIn_ = fadd m.timeIn_ dt ∧
      (m.tickActive dt).current_ = m.current_ := ⟨rfl, rfl⟩
  have hu := update_active m dt hact
  rw [hc.1, hc.2] at hu
  refine ⟨?_, ?_, ?_⟩
  · rw [callsOf_update_active m dt hact]
    by_cases hend : fadd m.timeIn_ dt ≥ m.current_.duration
    · simp [hend]
    · simp [hend]
  · intro hend
    rw [callsOf_update_active m dt hact, if_pos hend]
    rw [if_pos hend] at hu
    refine ⟨rfl, ?_, ?_, ?_, ?_, ?_, ?_⟩
    · rw [hu]; rfl
    · rw [hu]; rfl
    · rw [hu]; rfl
    · rw [hu]; rfl
    · rw [hu]; rfl
    · rw [hu]; rfl
  · intro hend _
    rw [if_neg hend] at hu
    rw [hu]
    exact ⟨rfl, hact, rfl, rfl⟩

/-- C16, amended, at the manager `meteorNearEnd`, whose event lasts 25
seconds, for `update(1.5e-6f)`, which ends the event, and at `meteorActive`
for `update(10)`, which does not. -/
theorem end_transition_witness :
    ((∃ d, Call.revert d ∈ meteorNearEnd.callsOf (Op.update (3298535 / 2199023255552))) ∧
      (meteorNearEnd.update (3298535 / 2199023255552)).state_ = State.Interval ∧
      (meteorNearEnd.update (3298535 / 2199023255552)).prevType_ =
        ChallengeType.MeteorShower) ∧
    ((¬ ∃ d, Call.revert d ∈ meteorActive.callsOf (Op.update 10)) ∧
      (meteorActive.update 10).state_ = State.Active ∧
      (meteorActive.update 10).timeIn_ = 10) := by
  have hn := end_transition meteorNearEnd (3298535 / 2199023255552) (by decide!)
  have h10 := end_transition meteorActive 10 (by decide)
  have en : fadd meteorNearEnd.timeIn_ (3298535 / 2199023255552) ≥
      meteorNearEnd.current_.duration := by decide!
  have e10 : ¬ fadd meteorActive.timeIn_ 10 ≥ meteorActive.current_.duration := by decide!
  have f10 : -overflow32 < meteorActive.timeIn_ + 10 := by decide!
  have ht : fadd meteorActive.timeIn_ 10 = 10 := by decide!
  have hty : meteorNearEnd.current_.type = ChallengeType.MeteorShower := by decide!
  obtain ⟨_, _, hprev, hst, _⟩ := hn.2.1 en
  obtain ⟨_, hst10, _, ht10⟩ := h10.2.2 e10 f10
  exact ⟨⟨hn.1.2 en, hst, hprev.trans hty⟩,
    ⟨fun h => e10 (h10.1.1 h), hst10, ht10.trans ht⟩⟩

/-! ## Invariants of the state `Active` -/

theorem coerce_floors (d : ChallengeDef) :
    1 ≤ (coerce d).duration ∧ 1 / 10 ≤ (coerce d).intensity := by
  rw [coerce_eq]
  exact ⟨le_max_left _ _, le_max_left _ _⟩

/-- What a public call does to the state, the active copy and the elapsed
time: it keeps the three, or leaves a state that is not `Active`, or begins an
event with a coerced copy and elapsed time zero, or is an `update` that lets
the active event go on. -/
theorem step_cases (m : DynamicChallengeManager) (op : Op) :
    ((m.step op).state_ = m.state_ ∧ (m.step op).current_ = m.current_ ∧
        (m.step op).timeIn_ = m.timeIn_) ∨
      (m.step op).state_ ≠ State.Active ∨
      (∃ d, (m.step op).state_ = State.Active ∧ (m.step op).current_ = coerce d ∧
        (m.step op).timeIn_ = 0) ∨
      (∃ dt, op = Op.update dt ∧ m.state_ = State.Active ∧
        (m.step op).state_ = State.Active ∧ (m.step op).current_ = m.current_ ∧
        (m.step op).timeIn_ = fadd m.timeIn_ dt ∧ ¬ fadd m.timeIn_ dt ≥ m.current_.duration) := by
  cases op with
  | setChallenges list => exact Or.inl ⟨rfl, rfl, rfl⟩
  | onStart cb => exact Or.inl ⟨rfl, rfl, rfl⟩
  | onEnd cb => exact Or.inl ⟨rfl, rfl, rfl⟩
  | onTick cb => exact Or.inl ⟨rfl, rfl, rfl⟩
  | setInitialDelayRange p => exact Or.inl ⟨rfl, rfl, rfl⟩
  | setIntervalRange p => exact Or.inl ⟨rfl, rfl, rfl⟩
  | startSystem =>
    right; left
    simp [step, startSystem, randInRange]
  | update dt =>
    show ((m.update dt).state_ = m.state_ ∧ (m.update dt).current_ = m.current_ ∧
        (m.update dt).timeIn_ = m.timeIn_) ∨
      (m.update dt).state_ ≠ State.Active ∨
      (∃ d, (m.update dt).state_ = State.Active ∧ (m.update dt).current_ = coerce d ∧
        (m.update dt).timeIn_ = 0) ∨
      (∃ dt2, Op.update dt = Op.update dt2 ∧ m.state_ = State.Active ∧
        (m.update dt).state_ = State.Active ∧ (m.update dt).current_ = m.current_ ∧
        (m.update dt).timeIn_ = fadd m.timeIn_ dt2 ∧ ¬ fadd m.timeIn_ dt2 ≥ m.current_.duration)
    by_cases hs : m.state_ = State.Active
    · have hu := update_active m dt hs
      have hc : (m.tickActive dt).timeIn_ = fadd m.timeIn_ dt ∧
          (m.tickActive dt).current_ = m.current_ := ⟨rfl, rfl⟩
      rw [hc.1, hc.2] at hu
      by_cases hend : fadd m.timeIn_ dt ≥ m.current_.duration
      · rw [if_pos hend] at hu
        right; left
        rw [hu]
        simp [endCurrentChallenge, randInRange]
      · rw [if_neg hend] at hu
        right; right; right
        rw [hu]
        exact ⟨dt, rfl, hs, hs, rfl, rfl, hend⟩
    · rw [update_waiting m dt hs]
      split
      · rcases startNewChallenge_cases (m.countDown dt) with ⟨_, he⟩ | ⟨_, d, _, _, he⟩
        · rw [he]
          exact Or.inl ⟨rfl, rfl, rfl⟩
        · rw [he]
          right; right; left
          exact ⟨d, rfl, rfl, rfl⟩
      · exact Or.inl ⟨rfl, rfl, rfl⟩
  | triggerNow type =>
    show ((m.triggerNow type).state_ = m.state_ ∧ (m.triggerNow type).current_ = m.current_ ∧
        (m.triggerNow type).timeIn_ = m.timeIn_) ∨
      (m.triggerNow type).state_ ≠ State.Active ∨
      (∃ d, (m.triggerNow type).state_ = State.Active ∧
        (m.triggerNow type).current_ = coerce d ∧ (m.triggerNow type).timeIn_ = 0) ∨
      (∃ dt2, Op.triggerNow type = Op.update dt2 ∧ m.state_ = State.Active ∧
        (m.triggerNow type).state_ = State.Active ∧ (m.triggerNow type).current_ = m.current_ ∧
        (m.triggerNow type).timeIn_ = fadd m.timeIn_ dt2 ∧
        ¬ fadd m.timeIn_ dt2 ≥ m.current_.duration)
    cases hf : m.challenges_.find? (fun d => d.type == type) with
    | some e =>
      right; right; left
      refine ⟨e, ?_, ?_, ?_⟩
      · by_cases hs : m.state_ = State.Active
        · simp [triggerNow, hs, hf, endCurrentChallenge, randInRange, beginCurrent]
        · simp [triggerNow, hs, hf, beginCurrent]
      · by_cases hs : m.state_ = State.Active
        · simp [triggerNow, hs, hf, endCurrentChallenge, randInRange, beginCurrent]
        · simp [triggerNow, hs, hf, beginCurrent]
      · by_cases hs : m.state_ = State.Active
        · simp [triggerNow, hs, hf, endCurrentChallenge, randInRange, beginCurrent]
        · simp [triggerNow, hs, hf, beginCurrent]
    | none =>
      by_cases hs : m.state_ = State.Active
      · right; left
        simp [triggerNow, hs, hf, endCurrentChallenge, randInRange]
      · left
        simp [triggerNow, hs, hf]

/-- Every public call keeps the floors of the active copy. -/
theorem step_floors (m : DynamicChallengeManager) (op : Op)
    (h : m.state_ = State.Active → 1 ≤ m.current_.duration ∧ 1 / 10 ≤ m.current_.intensity) :
    (m.step op).state_ = State.Active →
      1 ≤ (m.step op).current_.duration ∧ 1 / 10 ≤ (m.step op).current_.intensity := by
  intro hs
  rcases step_cases m op with ⟨h1, h2, _⟩ | hn | ⟨d, _, h2, _⟩ | ⟨dt, _, h1, _, h2, _⟩
  · rw [h2]
    exact h (h1 ▸ hs)
  · exact absurd hs hn
  · rw [h2]
    exact coerce_floors d
  · rw [h2]
    exact h h1

theorem run_floors (ops : List Op) :
    ∀ m : DynamicChallengeManager,
      (m.state_ = State.Active → 1 ≤ m.current_.duration ∧ 1 / 10 ≤ m.current_.intensity) →
      (m.run ops).state_ = State.Active →
        1 ≤ (m.run ops).current_.duration ∧ 1 / 10 ≤ (m.run ops).current_.intensity := by
  induction ops with
  | nil => intro m h; exact h
  | cons op ops ih => intro m h; exact ih (m.step op) (step_floors m op h)

/-- Every public call with `dt ≥ 0` keeps the elapsed time of an active event
below its duration. -/
theorem step_elapsed (m : DynamicChallengeManager) (op : Op)
    (hdt : ∀ dt, op = Op.update dt → 0 ≤ dt)
    (h : m.state_ = State.Active → 0 ≤ m.timeIn_ ∧ m.timeIn_ < m.current_.duration) :
    (m.step op).state_ = State.Active →
      0 ≤ (m.step op).timeIn_ ∧ (m.step op).timeIn_ < (m.step op).current_.duration := by
  intro hs
  rcases step_cases m op with ⟨h1, h2, h3⟩ | hn | ⟨d, _, h2, h3⟩ | ⟨dt, hop, h1, _, h2, h3, hlt⟩
  · rw [h2, h3]
    exact h (h1 ▸ hs)
  · exact absurd hs hn
  · rw [h2, h3]
    exact ⟨le_refl _, lt_of_lt_of_le (by norm_num) (coerce_floors d).1⟩
  · rw [h2, h3]
    have := hdt dt hop
    exact ⟨round32_nonneg _ (by linarith [(h h1).1]), lt_of_not_ge hlt⟩

theorem run_elapsed (ops : List Op) :
    ∀ m : DynamicChallengeManager, (∀ dt, Op.update dt ∈ ops → 0 ≤ dt) →
      (m.state_ = State.Active → 0 ≤ m.timeIn_ ∧ m.timeIn_ < m.current_.duration) →
      (m.run ops).state_ = State.Active →
        0 ≤ (m.run ops).timeIn_ ∧ (m.run ops).timeIn_ < (m.run ops).current_.duration := by
  induction ops with
  | nil => intro m _ h; exact h
  | cons op ops ih =>
    intro m hdt h
    exact ih (m.step op) (fun dt hm => hdt dt (List.mem_cons_of_mem _ hm))
      (step_elapsed m op (fun dt hop => hdt dt (hop ▸ List.mem_cons_self _ _)) h)

/-! ## The progress of the code and of the specification -/

theorem fclamp_eq (v : ℚ) : fclamp v 0 1 = max 0 (min 1 v) := by
  unfold fclamp
  split_ifs with h1 h2
  · rw [max_eq_left]
    exact le_trans (min_le_right _ _) (le_of_lt h1)
  · rw [min_eq_left (le_of_lt h2), max_eq_right (by norm_num)]
  · rw [min_eq_right (not_lt.1 h2), max_eq_right (not_lt.1 h1)]

/-- C17: in every state reached from a freshly constructed manager by public
calls in which an event is active, the duration of the active copy is at
least 1, so it is not zero and `max(0.01, duration)` is the duration itself;
the progress that `update(dt)` computes is `clamp(elapsed/duration, 0, 1)` as
the specification words it, and this is the progress every tick listener
receives. -/
theorem progress_refines_spec (rng : Nat → Canon) (ops : List Op) (dt : ℚ)
    (hact : ((DynamicChallengeManager.new rng).run ops).state_ = State.Active) :
    ((DynamicChallengeManager.new rng).run ops).current_.duration ≠ 0 ∧
      fmax (1 / 100) ((DynamicChallengeManager.new rng).run ops).current_.duration =
        ((DynamicChallengeManager.new rng).run ops).current_.duration ∧
      ((DynamicChallengeManager.new rng).run ops).progressAt
          (fadd ((DynamicChallengeManager.new rng).run ops).timeIn_ dt) =
        specProgress (fadd ((DynamicChallengeManager.new rng).run ops).timeIn_ dt)
          ((DynamicChallengeManager.new rng).run ops).current_.duration ∧
      ∀ cb d p,
        Call.ticked cb d p ∈ ((DynamicChallengeManager.new rng).run ops).callsOf (Op.update dt) →
        d = ((DynamicChallengeManager.new rng).run ops).current_ ∧
        p = specProgress (fadd ((DynamicChallengeManager.new rng).run ops).timeIn_ dt)
          ((DynamicChallengeManager.new rng).run ops).current_.duration := by
  have hfl := (run_floors ops (DynamicChallengeManager.new rng)
    (by intro h; simp [DynamicChallengeManager.new] at h) hact).1
  generalize (DynamicChallengeManager.new rng).run ops = m at hact hfl ⊢
  have hmax : fmax (1 / 100) m.current_.duration = m.current_.duration := by
    rw [fmax_eq_max]
    exact max_eq_right (by linarith)
  have hprog : ∀ t, m.progressAt t = specProgress t m.current_.duration := by
    intro t
    unfold progressAt specProgress
    rw [hmax, fclamp_eq]
  refine ⟨by linarith, hmax, hprog _, ?_⟩
  intro cb d p hmem
  rw [callsOf_update_active m dt hact] at hmem
  simp only [List.cons_append, List.mem_cons, reduceCtorEq, List.mem_append, List.mem_map,
    Call.ticked.injEq, false_or] at hmem
  rcases hmem with ⟨_, _, _, hd, hp⟩ | hmem
  · exact ⟨hd.symm, by rw [← hp, hprog]⟩
  · exfalso
    split at hmem
    · simp at hmem
    · simp at hmem

/-- C17 at the manager `demoMeteor` and `update(10)`. -/
theorem progress_refines_spec_witness :
    demoMeteor.current_.duration ≠ 0 ∧
      fmax (1 / 100) demoMeteor.current_.duration = demoMeteor.current_.duration ∧
      demoMeteor.progressAt (fadd demoMeteor.timeIn_ 10) =
        specProgress (fadd demoMeteor.timeIn_ 10) demoMeteor.current_.duration ∧
      ∀ cb d p, Call.ticked cb d p ∈ demoMeteor.callsOf (Op.update 10) →
        d = demoMeteor.current_ ∧
        p = specProgress (fadd demoMeteor.timeIn_ 10) demoMeteor.current_.duration :=
  progress_refines_spec halfRng
    [Op.setChallenges defaultChallenges, Op.onStart 1, Op.onEnd 2, Op.onTick 3,
      Op.triggerNow ChallengeType.MeteorShower] 10 (by decide)

/-! ## Selector totality -/

/-- C18: for a catalog that is not empty, whatever the previous category, the
pool is not empty: it is the list of the eligible entries, or the whole
catalog when no entry is eligible. For every draw the selector returns one
definition, an entry of the pool and of the catalog. `startNewChallenge`
makes one selector draw for such a catalog, and for an empty catalog it
returns at once, without calling the selector. -/
theorem selector_total (m : DynamicChallengeManager) (hne : m.challenges_ ≠ []) :
    m.pool ≠ [] ∧
      (m.challenges_.filter m.eligible = [] → m.pool = m.challenges_) ∧
      (m.challenges_.filter m.eligible ≠ [] → m.pool = m.challenges_.filter m.eligible) ∧
      (∀ r : ℚ, ∃ d, m.pickWith r = some d ∧ d ∈ m.pool ∧ d ∈ m.challenges_) ∧
      (∃ d, m.pickRandomWeighted.1 = some d ∧ d ∈ m.challenges_) ∧
      m.startNewChallenge.draws_ = m.draws_ ++ [DrawSite.pickRandomWeighted] ∧
      (m.setChallenges []).startNewChallenge = m.setChallenges [] := by
  have hall : ∀ r : ℚ, ∃ d, m.pickWith r = some d ∧ d ∈ m.pool ∧ d ∈ m.challenges_ := by
    intro r
    obtain ⟨d, hd, hmem⟩ := pickWith_mem m r hne
    exact ⟨d, hd, hmem, pool_subset m d hmem⟩
  refine ⟨pool_ne_nil m hne, ?_, ?_, hall, ?_, ?_, ?_⟩
  · intro h
    simp [pool, h]
  · intro h
    simp [pool, h]
  · obtain ⟨d, hd, hmem⟩ := pickAt_mem m
      (uniform 0 (total m.weights) (m.rng_ m.draws_.length)) hne
    exact ⟨d, hd, pool_subset m d hmem⟩
  · rcases startNewChallenge_cases m with ⟨he, _⟩ | ⟨_, d, _, _, hm⟩
    · exact absurd he hne
    · rw [hm]
      rfl
  · simp [startNewChallenge, setChallenges]

/-- C18 at the manager `meteorDone`, whose previous category is
`MeteorShower`. -/
theorem selector_total_witness :
    meteorDone.pool ≠ [] ∧
      (meteorDone.challenges_.filter meteorDone.eligible = [] →
        meteorDone.pool = meteorDone.challenges_) ∧
      (meteorDone.challenges_.filter meteorDone.eligible ≠ [] →
        meteorDone.pool = meteorDone.challenges_.filter meteorDone.eligible) ∧
      (∀ r : ℚ, ∃ d, meteorDone.pickWith r = some d ∧ d ∈ meteorDone.pool ∧
        d ∈ meteorDone.challenges_) ∧
      (∃ d, meteorDone.pickRandomWeighted.1 = some d ∧ d ∈ meteorDone.challenges_) ∧
      meteorDone.startNewChallenge.draws_ =
        meteorDone.draws_ ++ [DrawSite.pickRandomWeighted] ∧
      (meteorDone.setChallenges []).startNewChallenge = meteorDone.setChallenges [] :=
  selector_total meteorDone (by decide!)

/-! ## The invariant of the state `Active` -/

/-- C19: in every state reached from a freshly constructed manager by public
calls whose `update` have `dt ≥ 0`, if the state is `Active` then the active
copy has duration at least 1 and intensity at least 0.1, and the elapsed time
`t` satisfies `0 ≤ t < duration`. -/
theorem active_invariant (rng : Nat → Canon) (ops : List Op)
    (hdt : ∀ dt, Op.update dt ∈ ops → 0 ≤ dt)
    (hact : ((DynamicChallengeManager.new rng).run ops).state_ = State.Active) :
    1 ≤ ((DynamicChallengeManager.new rng).run ops).current_.duration ∧
      1 / 10 ≤ ((DynamicChallengeManager.new rng).run ops).current_.intensity ∧
      0 ≤ ((DynamicChallengeManager.new rng).run ops).timeIn_ ∧
      ((DynamicChallengeManager.new rng).run ops).timeIn_ <
        ((DynamicChallengeManager.new rng).run ops).current_.duration := by
  have h1 := run_floors ops (DynamicChallengeManager.new rng)
    (by intro h; simp [DynamicChallengeManager.new] at h) hact
  have h2 := run_elapsed ops (DynamicChallengeManager.new rng) hdt
    (by intro h; simp [DynamicChallengeManager.new] at h) hact
  exact ⟨h1.1, h1.2, h2.1, h2.2⟩

/-- C19 at the manager `demoTicked`, where 15 of the 25 seconds of the meteor
shower have passed. -/
theorem active_invariant_witness :
    1 ≤ demoTicked.current_.duration ∧ 1 / 10 ≤ demoTicked.current_.intensity ∧
      0 ≤ demoTicked.timeIn_ ∧ demoTicked.timeIn_ < demoTicked.current_.duration :=
  active_invariant halfRng
    [Op.setChallenges defaultChallenges, Op.triggerNow ChallengeType.MeteorShower,
      Op.update 10, Op.update 5]
    (by
      intro dt h
      simp only [List.mem_cons, reduceCtorEq, Op.update.injEq, List.mem_singleton,
        List.not_mem_nil, false_or, or_false] at h
      rcases h with rfl | rfl <;> norm_num)
    (by decide!)

/-! ## The first `update` of a fresh manager -/

theorem setup_keeps_fresh (ops : List Op) :
    ∀ m : DynamicChallengeManager, (∀ op ∈ ops, op.isSetup = true) →
      (m.run ops).state_ = m.state_ ∧ (m.run ops).countdown_ = m.countdown_ ∧
      (m.run ops).draws_ = m.draws_ ∧ (m.run ops).log_ = m.log_ := by
  induction ops with
  | nil => intro m _; exact ⟨rfl, rfl, rfl, rfl⟩
  | cons op ops ih =>
    intro m h
    have hop := h op (List.mem_cons_self _ _)
    have hrest := ih (m.step op) (fun o ho => h o (List.mem_cons_of_mem _ ho))
    have hstep : (m.step op).state_ = m.state_ ∧ (m.step op).countdown_ = m.countdown_ ∧
        (m.step op).draws_ = m.draws_ ∧ (m.step op).log_ = m.log_ := by
      cases op with
      | setChallenges list => exact ⟨rfl, rfl, rfl, rfl⟩
      | onStart cb => exact ⟨rfl, rfl, rfl, rfl⟩
      | onEnd cb => exact ⟨rfl, rfl, rfl, rfl⟩
      | onTick cb => exact ⟨rfl, rfl, rfl, rfl⟩
      | setInitialDelayRange p => exact ⟨rfl, rfl, rfl, rfl⟩
      | setIntervalRange p => exact ⟨rfl, rfl, rfl, rfl⟩
      | update dt => simp [Op.isSetup] at hop
      | startSystem => simp [Op.isSetup] at hop
      | triggerNow type => simp [Op.isSetup] at hop
    obtain ⟨a1, a2, a3, a4⟩ := hrest
    obtain ⟨b1, b2, b3, b4⟩ := hstep
    exact ⟨a1.trans b1, a2.trans b2, a3.trans b3, a4.trans b4⟩

/-- C20: take a freshly constructed manager that was only configured (catalog,
listeners, ranges; no `startSystem`, `update` or `triggerNow`) and whose
catalog is not empty. It waits in `BootDelay` with countdown 0 and has drawn
no random value. Its first `update(dt)`, for every `dt ≥ 0`, begins an event
in that call: the state becomes `Active` with elapsed time 0, the active copy
is the coerced copy of a catalog entry, `env.apply` and the start listeners
are called with it, and the only random value drawn is the one of the
selector, so no initial delay is drawn from `initialDelayRange`. -/
theorem first_update_begins (rng : Nat → Canon) (ops : List Op) (dt : ℚ)
    (hsetup : ∀ op ∈ ops, op.isSetup = true)
    (hne : ((DynamicChallengeManager.new rng).run ops).challenges_ ≠ [])
    (hdt : 0 ≤ dt) :
    ((DynamicChallengeManager.new rng).run ops).state_ = State.BootDelay ∧
      ((DynamicChallengeManager.new rng).run ops).countdown_ = 0 ∧
      ((DynamicChallengeManager.new rng).run ops).draws_ = [] ∧
      (((DynamicChallengeManager.new rng).run ops).update dt).state_ = State.Active ∧
      (((DynamicChallengeManager.new rng).run ops).update dt).timeIn_ = 0 ∧
      (∃ d ∈ ((DynamicChallengeManager.new rng).run ops).challenges_,
        (((DynamicChallengeManager.new rng).run ops).update dt).current_ = coerce d) ∧
      ((DynamicChallengeManager.new rng).run ops).callsOf (Op.update dt) =
        Call.apply (((DynamicChallengeManager.new rng).run ops).update dt).current_ ::
          ((DynamicChallengeManager.new rng).run ops).startListeners_.map
            (fun cb => Call.started cb
              (((DynamicChallengeManager.new rng).run ops).update dt).current_) ∧
      (((DynamicChallengeManager.new rng).run ops).update dt).draws_ =
        [DrawSite.pickRandomWeighted] := by
  obtain ⟨hs, hc, hd, _⟩ := setup_keeps_fresh ops (DynamicChallengeManager.new rng) hsetup
  have hs' : ((DynamicChallengeManager.new rng).run ops).state_ = State.BootDelay := hs
  have hc' : ((DynamicChallengeManager.new rng).run ops).countdown_ = 0 := hc
  have hd' : ((DynamicChallengeManager.new rng).run ops).draws_ = [] := hd
  generalize (DynamicChallengeManager.new rng).run ops = m at hne hs' hc' hd' ⊢
  have hna : m.state_ ≠ State.Active := by simp [hs']
  have hle : m.countdown_ - dt ≤ 0 := by rw [hc']; exact zero_sub_le dt hdt
  have hcalls := callsOf_update_waiting m dt hna
  rw [if_pos ⟨hle, hne⟩] at hcalls
  have hu := update_waiting m dt hna
  have hcd : (m.countDown dt).countdown_ = m.countdown_ - dt := rfl
  rw [hcd, if_pos hle] at hu
  rcases startNewChallenge_cases (m.countDown dt) with ⟨he, _⟩ | ⟨_, d, hmem, _, hm⟩
  · exact absurd he hne
  · rw [hm] at hu
    refine ⟨hs', hc', hd', ?_, ?_, ⟨d, pool_subset _ d hmem, ?_⟩, hcalls, ?_⟩
    · rw [hu]; rfl
    · rw [hu]; rfl
    · rw [hu]; rfl
    · rw [hu]
      show m.draws_ ++ [DrawSite.pickRandomWeighted] = [DrawSite.pickRandomWeighted]
      rw [hd']
      rfl

/-- C20 at the manager `demoFresh` and `update(0)`. -/
theorem first_update_begins_witness :
    demoFresh.state_ = State.BootDelay ∧ demoFresh.countdown_ = 0 ∧ demoFresh.draws_ = [] ∧
      (demoFresh.update 0).state_ = State.Active ∧ (demoFresh.update 0).timeIn_ = 0 ∧
      (∃ d ∈ demoFresh.challenges_, (demoFresh.update 0).current_ = coerce d) ∧
      demoFresh.callsOf (Op.update 0) =
        Call.apply (demoFresh.update 0).current_ ::
          demoFresh.startListeners_.map
            (fun cb => Call.started cb (demoFresh.update 0).current_) ∧
      (demoFresh.update 0).draws_ = [DrawSite.pickRandomWeighted] :=
  first_update_begins halfRng [Op.setChallenges defaultChallenges, Op.onStart 1] 0
    (by decide) (by decide) (le_refl _)

end Groot
